/-
Verification of the zkyes-smt sparse Merkle binary trie reference code:
`new_bintrie.py` (the eager engine) and `new_bintrie_optimized.py` (the
compact engine), checked against the natural-language specification.

Modelling choices (shallow embedding):

* The digest function `sha3` is modelled as a free constructor on the
  type `Word` of 32-byte strings: `Word.raw n` is the 32-byte string
  with big-endian integer value `n` and `Word.sha3 a b` is the digest
  of the 64-byte concatenation of `a` and `b`.  Every call of sha3 in
  the two source files hashes exactly such a 64-byte concatenation of
  two 32-byte strings.  Constructor freeness is the ideal-hash
  (collision-free) reading that the specification takes of its opaque
  digest function.

* 32-byte keys and values are modelled by their big-endian integer
  value, a `Nat`, bounded by 2^256 where a claim requires it;
  `key_to_path` of the source is then the identity on that value.

* A Python dict is an association list with the most recent binding
  first; `put` conses, `get` takes the first match, so rebinding a key
  shadows the old binding exactly as a dict overwrite does.

* Failure is explicit: a `None` returned by the store where the source
  would then crash (TypeError/KeyError) becomes `Option.none` or
  `Except.error missingNode`; the explicit `raise` in
  `make_double_key_hash` becomes `Except.error twoInOneSlot`.

* Loops `for i in range(256)` and the depth-bounded recursions are
  modelled by structural recursion on a fuel argument equal to
  `256 - depth`, which the source keeps invariant.

* The proof compressor is modelled at byte granularity (byte strings
  are `List Nat`), because claim C7 is about Python slices silently
  truncating; there the zero-hash table enters only through the opaque
  32-byte values `zerohashes[i+1]`, abstracted as a parameter
  `zhb : Nat → List Nat`.
-/
import Mathlib

set_option maxRecDepth 100000

inductive Word where
  | raw  : Nat → Word
  | sha3 : Word → Word → Word
deriving DecidableEq

open Word

/-- Zero-subtree hashes indexed by height above the leaves: `zhN 0` is
the 32-byte zero leaf and `zhN (h+1) = sha3 (zhN h ‖ zhN h)`. -/
def zhN : Nat → Word
  | 0 => raw 0
  | h + 1 => sha3 (zhN h) (zhN h)

/-- The source table `zerohashes[i]`, indexed by depth `i`:
`zerohashes 256` is the zero leaf, `zerohashes 0` the empty root. -/
def zerohashes (i : Nat) : Word := zhN (256 - i)

theorem zhN_inj : ∀ {a b : Nat}, zhN a = zhN b → a = b := by
  intro a
  induction a with
  | zero =>
    intro b h
    cases b with
    | zero => rfl
    | succ b => simp [zhN] at h
  | succ a ih =>
    intro b h
    cases b with
    | zero => simp [zhN] at h
    | succ b =>
      simp only [zhN, Word.sha3.injEq] at h
      exact congrArg Nat.succ (ih h.1)

/-- A word is never equal to a hash having it as a direct child
(occurs check via a size measure). -/
def wsize : Word → Nat
  | raw _ => 1
  | sha3 a b => wsize a + wsize b + 1

theorem sha3_ne_left (a b : Word) : sha3 a b ≠ a := by
  intro h
  have : wsize (sha3 a b) = wsize a := congrArg wsize h
  simp only [wsize] at this
  omega

theorem sha3_ne_right (a b : Word) : sha3 a b ≠ b := by
  intro h
  have : wsize (sha3 a b) = wsize b := congrArg wsize h
  simp only [wsize] at this
  omega

namespace Codec

/-- Test bit `i` of the 32-byte bitmap, exactly as the source reads
`bits[i // 8] & (1 << (i % 8))`. -/
def byteTest (bits : List Nat) (i : Nat) : Bool :=
  (bits.getD (i / 8) 0) &&& (1 <<< (i % 8)) ≠ 0

/-- Set bit `i` of the 32-byte bitmap, exactly as the source writes
`bits[i // 8] ^= 1 << i % 8`. -/
def setBit (bits : List Nat) (i : Nat) : List Nat :=
  bits.set (i / 8) ((bits.getD (i / 8) 0) ^^^ (1 <<< (i % 8)))

/-- Loop of `compress_proof`: walks the proof entries with their index,
setting a bitmap bit for entries equal to the depth's zero hash and
appending the other entries to the output buffer. -/
def compress_loop (zhb : Nat → List Nat) :
    Nat → List (List Nat) → List Nat → List Nat → List Nat × List Nat
  | _, [], bits, oproof => (bits, oproof)
  | i, p :: rest, bits, oproof =>
    if p = zhb (i + 1) then compress_loop zhb (i + 1) rest (setBit bits i) oproof
    else compress_loop zhb (i + 1) rest bits (oproof ++ p)

/-- Source `compress_proof`: 32-byte bitmap followed by the non-elided
entries in depth order. -/
def compress_proof (zhb : Nat → List Nat) (proof : List (List Nat)) : List Nat :=
  (compress_loop zhb 0 proof (List.replicate 32 0) []).1 ++
    (compress_loop zhb 0 proof (List.replicate 32 0) []).2

/-- Loop of `decompress_proof`.  `oproof[pos : pos + 32]` is
`(oproof.drop pos).take 32`, which — like the Python slice — silently
truncates when fewer than 32 bytes remain.  Reading a bitmap byte out
of range (IndexError in the source) is `none`. -/
def decompress_loop (zhb : Nat → List Nat) (oproof : List Nat) :
    Nat → Nat → Nat → Option (List (List Nat))
  | 0, _, _ => some []
  | fuel + 1, i, pos =>
    match (oproof.take 32)[i / 8]? with
    | none => none
    | some b =>
      if b &&& (1 <<< (i % 8)) ≠ 0 then
        match decompress_loop zhb oproof fuel (i + 1) pos with
        | some proof => some (zhb (i + 1) :: proof)
        | none => none
      else
        match decompress_loop zhb oproof fuel (i + 1) (pos + 32) with
        | some proof => some ((oproof.drop pos).take 32 :: proof)
        | none => none

/-- Source `decompress_proof`: read the 32-byte bitmap, then for each of
the 256 depths reinsert the zero hash or consume the next 32 bytes. -/
def decompress_proof (zhb : Nat → List Nat) (oproof : List Nat) :
    Option (List (List Nat)) :=
  decompress_loop zhb oproof 256 0 32

/-- The non-elided payload produced by compressing entries starting at
index `i`. -/
def payloadOf (zhb : Nat → List Nat) : Nat → List (List Nat) → List Nat
  | _, [] => []
  | i, p :: rest =>
    (if p = zhb (i + 1) then [] else p) ++ payloadOf zhb (i + 1) rest

/-- The final bitmap produced by compressing entries starting at
index `i` into bitmap accumulator `bits`. -/
def bitsOf (zhb : Nat → List Nat) : Nat → List (List Nat) → List Nat → List Nat
  | _, [], bits => bits
  | i, p :: rest, bits =>
    if p = zhb (i + 1) then bitsOf zhb (i + 1) rest (setBit bits i)
    else bitsOf zhb (i + 1) rest bits

theorem compress_loop_eq (zhb : Nat → List Nat) :
    ∀ (ps : List (List Nat)) (i : Nat) (bits acc : List Nat),
      compress_loop zhb i ps bits acc =
        (bitsOf zhb i ps bits, acc ++ payloadOf zhb i ps) := by
  intro ps
  induction ps with
  | nil => intro i bits acc; simp [compress_loop, bitsOf, payloadOf]
  | cons p rest ih =>
    intro i bits acc
    by_cases h : p = zhb (i + 1)
    · simp [compress_loop, bitsOf, payloadOf, h, ih]
    · simp [compress_loop, bitsOf, payloadOf, h, ih, List.append_assoc]

theorem setBit_length (bits : List Nat) (i : Nat) :
    (setBit bits i).length = bits.length := by
  simp [setBit]

theorem bitsOf_length (zhb : Nat → List Nat) :
    ∀ (ps : List (List Nat)) (i : Nat) (bits : List Nat),
      (bitsOf zhb i ps bits).length = bits.length := by
  intro ps
  induction ps with
  | nil => intro i bits; simp [bitsOf]
  | cons p rest ih =>
    intro i bits
    by_cases h : p = zhb (i + 1) <;>
      simp [bitsOf, h, ih, setBit_length]

theorem and_shift_ne_zero (x m : Nat) : (x &&& (1 <<< m) ≠ 0) ↔ x.testBit m := by
  rw [Nat.shiftLeft_eq, one_mul, Nat.and_two_pow]
  rcases h : x.testBit m <;> simp [h, Nat.pow_pos]

theorem byteTest_eq_testBit (bits : List Nat) (i : Nat) :
    byteTest bits i = (bits.getD (i / 8) 0).testBit (i % 8) := by
  rcases h : (bits.getD (i / 8) 0).testBit (i % 8)
  · simp only [byteTest, decide_eq_false_iff_not]
    intro hP
    have h2 := (and_shift_ne_zero _ _).mp hP
    rw [h] at h2
    exact Bool.false_ne_true h2
  · simp only [byteTest, decide_eq_true_eq]
    exact (and_shift_ne_zero _ _).mpr h

theorem byteTest_setBit_self (bits : List Nat) (i : Nat)
    (hlen : i / 8 < bits.length) (h : byteTest bits i = false) :
    byteTest (setBit bits i) i = true := by
  rw [byteTest_eq_testBit] at h ⊢
  have hg : ((bits.set (i / 8) (bits.getD (i / 8) 0 ^^^ 1 <<< (i % 8))).getD (i / 8) 0)
      = bits.getD (i / 8) 0 ^^^ 1 <<< (i % 8) := by
    simp [List.getD, List.getElem?_set_self, hlen]
  rw [setBit, hg, Nat.shiftLeft_eq, one_mul, Nat.testBit_xor, h,
    Nat.testBit_two_pow_self]
  rfl

theorem byteTest_setBit_ne (bits : List Nat) (i j : Nat)
    (hlen : i / 8 < bits.length) (hij : j ≠ i) :
    byteTest (setBit bits i) j = byteTest bits j := by
  rw [byteTest_eq_testBit, byteTest_eq_testBit, setBit]
  by_cases hb : j / 8 = i / 8
  · have hne : i % 8 ≠ j % 8 := by
      intro he
      exact hij (by omega)
    have hg : ((bits.set (i / 8) (bits.getD (i / 8) 0 ^^^ 1 <<< (i % 8))).getD (j / 8) 0)
        = bits.getD (i / 8) 0 ^^^ 1 <<< (i % 8) := by
      rw [hb]
      simp [List.getD, List.getElem?_set_self, hlen]
    rw [hg, hb, Nat.shiftLeft_eq, one_mul, Nat.testBit_xor,
      Nat.testBit_two_pow_of_ne hne, Bool.xor_false]
  · have hg : ((bits.set (i / 8) (bits.getD (i / 8) 0 ^^^ 1 <<< (i % 8))).getD (j / 8) 0)
        = bits.getD (j / 8) 0 := by
      simp [List.getD, List.getElem?_set_ne (fun he => hb (Eq.symm he))]
    rw [hg]

theorem byteTest_bitsOf_lt (zhb : Nat → List Nat) :
    ∀ (ps : List (List Nat)) (i : Nat) (bits : List Nat) (j : Nat),
      bits.length = 32 → i + ps.length ≤ 256 → j < i →
      byteTest (bitsOf zhb i ps bits) j = byteTest bits j := by
  intro ps
  induction ps with
  | nil => intro i bits j _ _ _; simp [bitsOf]
  | cons p rest ih =>
    intro i bits j hlen hb hj
    simp only [List.length_cons] at hb
    by_cases h : p = zhb (i + 1)
    · simp only [bitsOf, if_pos h]
      rw [ih (i + 1) _ j (by simp [setBit_length, hlen]) (by omega) (by omega)]
      exact byteTest_setBit_ne bits i j (by rw [hlen]; omega) (by omega)
    · simp only [bitsOf, if_neg h]
      exact ih (i + 1) bits j hlen (by omega) (by omega)

theorem byteTest_bitsOf (zhb : Nat → List Nat) :
    ∀ (ps : List (List Nat)) (i : Nat) (bits : List Nat) (j : Nat),
      bits.length = 32 → i + ps.length ≤ 256 →
      (∀ m, i ≤ m → byteTest bits m = false) →
      i ≤ j → j < i + ps.length →
      byteTest (bitsOf zhb i ps bits) j = decide (ps[j - i]? = some (zhb (j + 1))) := by
  intro ps
  induction ps with
  | nil => intro i bits j _ _ _ h1 h2; simp at h2; omega
  | cons p rest ih =>
    intro i bits j hlen hb hclear hij hjb
    simp only [List.length_cons] at hb hjb
    by_cases h : p = zhb (i + 1)
    · simp only [bitsOf, if_pos h]
      rcases Nat.eq_or_lt_of_le hij with he | hlt
      · subst he
        rw [byteTest_bitsOf_lt zhb rest (i + 1) _ i
            (by simp [setBit_length, hlen]) (by omega) (by omega)]
        rw [byteTest_setBit_self bits i (by rw [hlen]; omega) (hclear i le_rfl)]
        simp [h]
      · have hrw : j - i = (j - (i + 1)) + 1 := by omega
        rw [ih (i + 1) _ j (by simp [setBit_length, hlen]) (by omega)
            (fun m hm => by
              rw [byteTest_setBit_ne bits i m (by rw [hlen]; omega) (by omega)]
              exact hclear m (by omega))
            (by omega) (by omega), hrw]
        simp
    · simp only [bitsOf, if_neg h]
      rcases Nat.eq_or_lt_of_le hij with he | hlt
      · subst he
        rw [byteTest_bitsOf_lt zhb rest (i + 1) bits i hlen (by omega) (by omega)]
        rw [hclear i le_rfl]
        simp [h]
      · have hrw : j - i = (j - (i + 1)) + 1 := by omega
        rw [ih (i + 1) bits j hlen (by omega) (fun m hm => hclear m (by omega))
            (by omega) (by omega), hrw]
        simp


theorem decompress_loop_payload (zhb : Nat → List Nat) :
    ∀ (ps : List (List Nat)) (i : Nat) (oproof : List Nat) (pos : Nat),
      i + ps.length = 256 →
      32 ≤ oproof.length →
      (∀ p ∈ ps, p.length = 32) →
      (∀ j, i ≤ j → j < 256 →
        byteTest (oproof.take 32) j = decide (ps[j - i]? = some (zhb (j + 1)))) →
      oproof.drop pos = payloadOf zhb i ps →
      decompress_loop zhb oproof (256 - i) i pos = some ps := by
  intro ps
  induction ps with
  | nil =>
    intro i oproof pos hi _ _ _ _
    simp only [List.length_nil, Nat.add_zero] at hi
    subst hi
    simp [decompress_loop]
  | cons p rest ih =>
    intro i oproof pos hi hlen hall hbits hpay
    simp only [List.length_cons] at hi
    have hfuel : 256 - i = (256 - (i + 1)) + 1 := by omega
    have htlen : (oproof.take 32).length = 32 := by
      rw [List.length_take]
      omega
    have hidx : i / 8 < (oproof.take 32).length := by
      rw [htlen]
      omega
    have hread : (oproof.take 32)[i / 8]? = some ((oproof.take 32).getD (i / 8) 0) := by
      simp [List.getD, List.getElem?_eq_getElem hidx]
    rw [hfuel]
    simp only [decompress_loop, hread]
    have hbit := hbits i le_rfl (by omega)
    simp only [Nat.sub_self, List.getElem?_cons_zero, Option.some.injEq] at hbit
    have hbits2 : ∀ j, i + 1 ≤ j → j < 256 →
        byteTest (oproof.take 32) j = decide (rest[j - (i + 1)]? = some (zhb (j + 1))) := by
      intro j h1 h2
      rw [hbits j (by omega) h2]
      have : j - i = (j - (i + 1)) + 1 := by omega
      rw [this]
      simp
    by_cases h : p = zhb (i + 1)
    · have hb : (oproof.take 32).getD (i / 8) 0 &&& 1 <<< (i % 8) ≠ 0 := by
        have : byteTest (oproof.take 32) i = true := by rw [hbit]; simp [h]
        simpa [byteTest] using this
      rw [if_pos hb]
      have hrec : oproof.drop pos = payloadOf zhb (i + 1) rest := by
        rw [hpay]
        simp [payloadOf, h]
      rw [ih (i + 1) oproof pos (by omega) hlen
          (fun q hq => hall q (List.mem_cons_of_mem _ hq)) hbits2 hrec]
      rw [h]
    · have hb : ¬ ((oproof.take 32).getD (i / 8) 0 &&& 1 <<< (i % 8) ≠ 0) := by
        have : byteTest (oproof.take 32) i = false := by rw [hbit]; simp [h]
        simpa [byteTest] using this
      rw [if_neg hb]
      have hplen : p.length = 32 := hall p (List.mem_cons_self p rest)
      have hpay1 : oproof.drop pos = p ++ payloadOf zhb (i + 1) rest := by
        rw [hpay]
        simp [payloadOf, h]
      have hentry : (oproof.drop pos).take 32 = p := by
        rw [hpay1, ← hplen, List.take_left]
      have hrec : oproof.drop (pos + 32) = payloadOf zhb (i + 1) rest := by
        rw [← List.drop_drop, hpay1, ← hplen]
        · exact List.drop_left p _
      rw [ih (i + 1) oproof (pos + 32) (by omega) hlen
          (fun q hq => hall q (List.mem_cons_of_mem _ hq)) hbits2 hrec, hentry]


theorem byteTest_replicate_zero (i : Nat) :
    byteTest (List.replicate 32 0) i = false := by
  have hg : (List.replicate 32 (0 : Nat)).getD (i / 8) 0 = 0 := by
    rw [List.getD, List.get?_eq_getElem?, List.getElem?_replicate]
    rcases lt_or_ge (i / 8) 32 with h | h
    · rw [if_pos h]
      rfl
    · rw [if_neg (Nat.not_lt.mpr h)]
      rfl
  simp only [byteTest, hg, Nat.zero_and, ne_eq, decide_not]
  rfl

/-- Claim C5: for every well-formed proof of exactly 256 entries of 32
bytes each, decompressing the compressed proof returns the original
proof, whatever 32-byte serialization the zero-hash table has. -/
theorem claim_compress_roundtrip (zhb : Nat → List Nat) (proof : List (List Nat))
    (hlen : proof.length = 256) (hall : ∀ p ∈ proof, p.length = 32) :
    decompress_proof zhb (compress_proof zhb proof) = some proof := by
  have hcp : compress_proof zhb proof =
      bitsOf zhb 0 proof (List.replicate 32 0) ++ payloadOf zhb 0 proof := by
    rw [compress_proof, compress_loop_eq]
    simp
  have hB : (bitsOf zhb 0 proof (List.replicate 32 0)).length = 32 := by
    rw [bitsOf_length]
    simp
  have htake : (compress_proof zhb proof).take 32 =
      bitsOf zhb 0 proof (List.replicate 32 0) := by
    rw [hcp, List.take_left' hB]
  have hdrop : (compress_proof zhb proof).drop 32 = payloadOf zhb 0 proof := by
    rw [hcp, List.drop_left' hB]
  have h32 : 32 ≤ (compress_proof zhb proof).length := by
    rw [hcp, List.length_append, hB]
    omega
  have := decompress_loop_payload zhb proof 0 (compress_proof zhb proof) 32
    (by omega) h32 hall
    (fun j _ hj => by
      rw [htake, byteTest_bitsOf zhb proof 0 (List.replicate 32 0) j
        (by simp) (by omega) (fun m _ => byteTest_replicate_zero m) (Nat.zero_le j)
        (by omega)])
    hdrop
  simpa [decompress_proof] using this

/-- Claim C5 witness: a concrete 256-entry proof of 32-byte entries
round-trips. -/
theorem claim_compress_roundtrip_witness :
    (List.replicate 256 (List.replicate 32 1)).length = 256 ∧
    decompress_proof (fun _ => List.replicate 32 0)
        (compress_proof (fun _ => List.replicate 32 0)
          (List.replicate 256 (List.replicate 32 1)))
      = some (List.replicate 256 (List.replicate 32 1)) :=
  ⟨by decide,
    claim_compress_roundtrip (fun _ => List.replicate 32 0) _ (by decide)
      (fun p hp => by rw [List.eq_of_mem_replicate hp]; rfl)⟩

/-- Claim C7, behavior at the failing input: a compressed proof whose
32-byte bitmap declares 256 missing entries but whose payload is empty
is decompressed without any error into 256 empty byte strings — the
sliced entries are silently truncated to zero length. -/
theorem claim_decompress_truncation :
    decompress_proof (fun _ => List.replicate 32 0) (List.replicate 32 0)
      = some (List.replicate 256 ([] : List Nat)) := by decide

end Codec

namespace Eager

/-- The eager engine's store (`EphemDB` of `new_bintrie.py`): digest to
64-byte node, i.e. the pair of the two 32-byte child halves. -/
abbrev DB := List (Word × Word × Word)

def dbget (db : DB) (k : Word) : Option (Word × Word) :=
  match db.find? (fun e => e.1 == k) with
  | some e => some e.2
  | none => none

def dbput (db : DB) (k : Word) (v : Word × Word) : DB := (k, v) :: db

/-- Source `key_to_path`: a 32-byte key as its big-endian integer,
which is how keys are modelled here, so the function is the
identity. -/
def key_to_path (k : Nat) : Nat := k

/-- Loop of the source `new_tree`: 256 iterations, each hashing the
running zero hash with itself and storing the duplicated node. -/
def new_tree_loop : Nat → DB → Word → DB × Word
  | 0, db, h => (db, h)
  | n + 1, db, h => new_tree_loop n (dbput db (sha3 h h) (h, h)) (sha3 h h)

def new_tree (db : DB) : DB × Word := new_tree_loop 256 db (raw 0)

/-- Loop of the source `get`: pick the child half by the top path bit,
shift the path, 256 times.  A missing node is a crash in the source. -/
def get_loop (db : DB) : Nat → Word → Nat → Option Word
  | 0, v, _ => some v
  | n + 1, v, path =>
    match dbget db v with
    | none => none
    | some (l, r) =>
      if (path >>> 255) &&& 1 = 1 then get_loop db n r (path <<< 1)
      else get_loop db n l (path <<< 1)

def get (db : DB) (root : Word) (key : Nat) : Option Word :=
  get_loop db 256 root (key_to_path key)

/-- First pass of the source `update` (identical to
`make_merkle_proof`): collect the sibling of each node along the
key's path, root first. -/
def sidenodes_loop (db : DB) : Nat → Word → Nat → Option (List Word)
  | 0, _, _ => some []
  | n + 1, v, path =>
    match dbget db v with
    | none => none
    | some (l, r) =>
      if (path >>> 255) &&& 1 = 1 then
        match sidenodes_loop db n r (path <<< 1) with
        | some sns => some (l :: sns)
        | none => none
      else
        match sidenodes_loop db n l (path <<< 1) with
        | some sns => some (r :: sns)
        | none => none

/-- Second pass of the source `update`: consume the collected sidenodes
leaf first (the source pops from the end of the list), combining with
the running digest in the order given by the low path bit, and store
each new node. -/
def update_loop : List Word → Nat → Word → DB → DB × Word
  | [], _, v, db => (db, v)
  | s :: rest, path2, v, db =>
    if path2 &&& 1 = 1 then
      update_loop rest (path2 >>> 1) (sha3 s v) (dbput db (sha3 s v) (s, v))
    else
      update_loop rest (path2 >>> 1) (sha3 v s) (dbput db (sha3 v s) (v, s))

def update (db : DB) (root : Word) (key value : Nat) : Option (DB × Word) :=
  match sidenodes_loop db 256 root (key_to_path key) with
  | some sns => some (update_loop sns.reverse (key_to_path key) (raw value) db)
  | none => none

def make_merkle_proof (db : DB) (root : Word) (key : Nat) : Option (List Word) :=
  sidenodes_loop db 256 root (key_to_path key)

/-- Loop of the source `verify_proof`: starting from the value, combine
with the proof entries from the last towards the first (the reversed
list here), in the order given by the low path bit.  Runs exactly 256
iterations; a too-short proof is an IndexError in the source. -/
def verify_loop : Nat → List Word → Nat → Word → Option Word
  | 0, _, _, v => some v
  | n + 1, ps, path, v =>
    match ps with
    | [] => none
    | p :: rest =>
      if path &&& 1 = 1 then verify_loop n rest (path >>> 1) (sha3 p v)
      else verify_loop n rest (path >>> 1) (sha3 v p)

def verify_proof (proof : List Word) (root : Word) (key : Nat) (value : Word) :
    Option Bool :=
  match verify_loop 256 proof.reverse (key_to_path key) value with
  | some v => some (root == v)
  | none => none

/-- Source `multi_update`: fold `update` over the key/value pairs. -/
def multi_update : DB → Word → List (Nat × Nat) → Option (DB × Word)
  | db, root, [] => some (db, root)
  | db, root, (k, v) :: rest =>
    match update db root k v with
    | some (db2, r2) => multi_update db2 r2 rest
    | none => none

end Eager

namespace Compact

/-- The two stored node encodings of `new_bintrie_optimized.py`,
distinguished in the source by their byte length:
`pair l r` is the 64-byte internal node `l ‖ r`;
`leaf p v` is the 65-byte single-leaf node `0x01 ‖ p ‖ v`, where `p`
and `v` are the 32-byte path and value as big-endian integers. -/
inductive Node where
  | pair : Word → Word → Node
  | leaf : Nat → Nat → Node
deriving DecidableEq

abbrev DB := List (Word × Node)

def dbget (db : DB) (k : Word) : Option Node :=
  match db.find? (fun e => e.1 == k) with
  | some e => some e.2
  | none => none

def dbput (db : DB) (k : Word) (v : Node) : DB := (k, v) :: db

/-- Source compact `new_tree`: returns the depth-0 zero hash without
touching the store. -/
def new_tree (_db : DB) : Word := zerohashes 0

def key_to_path (k : Nat) : Nat := k

def tt256m1 : Nat := 2 ^ 256 - 1

/-- Source `path_to_key`: truncate a path integer to its low 256 bits
(32 bytes). -/
def path_to_key (k : Nat) : Nat := k &&& tt256m1

/-- The error conditions of the compact engine: a digest missing from
the store (a crash on `len(None)` in the source), and the explicit
`raise Exception("Cannot fit two values into one slot!")`. -/
inductive Err where
  | missingNode | twoInOneSlot
deriving DecidableEq

/-- Loop of the compact source `get` with fuel `256 - depth`:
at depth `i` (fuel `256 - i`), short-circuit on `zerohashes i`
(`zhN fuel`), then fetch the node; a 65-byte node answers immediately
by comparing the remaining path with the stored one; a 64-byte node
selects the child half by the top path bit. -/
def get_loop (db : DB) : Nat → Word → Nat → Option Word
  | 0, v, _ => some v
  | n + 1, v, path =>
    if v = zhN (n + 1) then some (raw 0)
    else
      match dbget db v with
      | none => none
      | some (.leaf p val) =>
        if path % 2 ^ 256 = key_to_path p then some (raw val) else some (raw 0)
      | some (.pair l r) =>
        if (path >>> 255) &&& 1 = 1 then get_loop db n r (path <<< 1)
        else get_loop db n l (path <<< 1)

def get (db : DB) (root : Word) (key : Nat) : Option Word :=
  get_loop db 256 root (key_to_path key)

/-- Source `make_single_key_hash` with fuel `256 - depth`: the root of
a single-leaf subtree, pure, pairing with `zerohashes[depth+1]`
(`zhN n`) on the empty side at every level. -/
def make_single_key_hash_fuel : Nat → Nat → Nat → Word
  | 0, _, value => raw value
  | n + 1, path, value =>
    if (path >>> 255) &&& 1 = 1 then
      sha3 (zhN n) (make_single_key_hash_fuel n (path <<< 1) value)
    else
      sha3 (make_single_key_hash_fuel n (path <<< 1) value) (zhN n)

def make_single_key_hash (path depth value : Nat) : Word :=
  make_single_key_hash_fuel (256 - depth) path value

/-- Source `make_double_key_hash` with fuel `256 - depth`: walk down
while the two paths share their top bit, pairing with
`zerohashes[depth+1]` on the other side; at the first divergence store
one 65-byte single-leaf node per side plus their 64-byte parent; at
depth 256 (fuel 0) raise. -/
def make_double_key_hash_fuel (db : DB) :
    Nat → Nat → Nat → Nat → Nat → Except Err (DB × Word)
  | 0, _, _, _, _ => .error .twoInOneSlot
  | n + 1, path1, path2, value1, value2 =>
    if (path1 >>> 255) &&& 1 = 1 then
      if (path2 >>> 255) &&& 1 = 1 then
        match make_double_key_hash_fuel db n (path1 <<< 1) (path2 <<< 1) value1 value2 with
        | .error e => .error e
        | .ok (db2, d) =>
          .ok (dbput db2 (sha3 (zhN n) d) (.pair (zhN n) d), sha3 (zhN n) d)
      else
        let L := make_single_key_hash_fuel n (path2 <<< 1) value2
        let R := make_single_key_hash_fuel n (path1 <<< 1) value1
        let db2 := dbput db L (.leaf (path_to_key (path2 <<< 1)) value2)
        let db3 := dbput db2 R (.leaf (path_to_key (path1 <<< 1)) value1)
        .ok (dbput db3 (sha3 L R) (.pair L R), sha3 L R)
    else
      if (path2 >>> 255) &&& 1 = 1 then
        let L := make_single_key_hash_fuel n (path1 <<< 1) value1
        let R := make_single_key_hash_fuel n (path2 <<< 1) value2
        let db2 := dbput db L (.leaf (path_to_key (path1 <<< 1)) value1)
        let db3 := dbput db2 R (.leaf (path_to_key (path2 <<< 1)) value2)
        .ok (dbput db3 (sha3 L R) (.pair L R), sha3 L R)
      else
        match make_double_key_hash_fuel db n (path1 <<< 1) (path2 <<< 1) value1 value2 with
        | .error e => .error e
        | .ok (db2, d) =>
          .ok (dbput db2 (sha3 d (zhN n)) (.pair d (zhN n)), sha3 d (zhN n))

def make_double_key_hash (db : DB) (path1 path2 depth value1 value2 : Nat) :
    Except Err (DB × Word) :=
  make_double_key_hash_fuel db (256 - depth) path1 path2 value1 value2

/-- Source `_update` with fuel `256 - depth`: at fuel 0 return the
value itself; on an empty subtree (`zerohashes depth` = `zhN fuel`)
store one single-leaf node; on a 65-byte node call the double-key
constructor with the stored path; on a 64-byte node recurse into the
selected child half and store the recombined parent. -/
def update_fuel : Nat → DB → Word → Nat → Nat → Except Err (DB × Word)
  | 0, db, _root, _path, value => .ok (db, raw value)
  | n + 1, db, root, path, value =>
    if root = zhN (n + 1) then
      let k := make_single_key_hash_fuel (n + 1) path value
      .ok (dbput db k (.leaf (path_to_key path) value), k)
    else
      match dbget db root with
      | none => .error .missingNode
      | some (.leaf origpath origvalue) =>
        make_double_key_hash_fuel db (n + 1) path (key_to_path origpath) value origvalue
      | some (.pair l r) =>
        if (path >>> 255) &&& 1 = 1 then
          match update_fuel n db r (path <<< 1) value with
          | .error e => .error e
          | .ok (db2, d) => .ok (dbput db2 (sha3 l d) (.pair l d), sha3 l d)
        else
          match update_fuel n db l (path <<< 1) value with
          | .error e => .error e
          | .ok (db2, d) => .ok (dbput db2 (sha3 d r) (.pair d r), sha3 d r)

def update (db : DB) (root : Word) (key value : Nat) : Except Err (DB × Word) :=
  update_fuel 256 db root (key_to_path key) value

/-- Source compact `multi_update`: fold `update` over the pairs. -/
def multi_update : DB → Word → List (Nat × Nat) → Except Err (DB × Word)
  | db, root, [] => .ok (db, root)
  | db, root, (k, v) :: rest =>
    match update db root k v with
    | .ok (db2, r2) => multi_update db2 r2 rest
    | .error e => .error e

end Compact

namespace Paths

/-- The source keeps at depth `d` the invariant `path = key <<< d`;
with fuel `n + 1` (`d = 255 - n`), the tested top bit of the shifted
path is bit `n` of the key. -/
theorem path_top_bit (k n : Nat) (h : n ≤ 255) :
    (((k <<< (255 - n)) >>> 255) &&& 1 = 1) ↔ k.testBit n := by
  rw [Nat.shiftLeft_eq, Nat.shiftRight_eq_div_pow, Nat.and_one_is_mod]
  have h255 : (2 : Nat) ^ 255 = 2 ^ (255 - n) * 2 ^ n := by
    rw [← pow_add]
    congr 1
    omega
  rw [h255, ← Nat.div_div_eq_div_mul, Nat.mul_div_cancel _ (Nat.pos_pow_of_pos _ (by omega)),
    Nat.testBit_to_div_mod, decide_eq_true_eq]

theorem shl_one (k a : Nat) : (k <<< a) <<< 1 = k <<< (a + 1) :=
  (Nat.shiftLeft_add k a 1).symm

theorem shl_mod (k s : Nat) (h : s ≤ 256) :
    (k <<< s) % 2 ^ 256 = (k % 2 ^ (256 - s)) <<< s := by
  rw [Nat.shiftLeft_eq, Nat.shiftLeft_eq]
  have : (2 : Nat) ^ 256 = 2 ^ (256 - s) * 2 ^ s := by
    rw [← pow_add]
    congr 1
    omega
  rw [this, Nat.mul_mod_mul_right]

theorem shl_inj {a b : Nat} (s : Nat) (h : a <<< s = b <<< s) : a = b := by
  rw [Nat.shiftLeft_eq, Nat.shiftLeft_eq] at h
  exact Nat.eq_of_mul_eq_mul_right (Nat.pos_pow_of_pos _ (by omega)) h

theorem mod_pow_succ_testBit (k n : Nat) :
    k % 2 ^ (n + 1) = (if k.testBit n then 2 ^ n + k % 2 ^ n else k % 2 ^ n) := by
  rw [Nat.mod_pow_succ, Nat.testBit_to_div_mod]
  rcases Nat.mod_two_eq_zero_or_one (k / 2 ^ n) with h | h <;> simp [h] <;> omega

theorem testBit_mod_pow {i m : Nat} (k : Nat) (h : i < m) :
    (k % 2 ^ m).testBit i = k.testBit i := by
  rw [Nat.testBit_mod_two_pow]
  simp [h]

theorem mod_mod_pow (k n : Nat) : (k % 2 ^ (n + 1)) % 2 ^ n = k % 2 ^ n :=
  Nat.mod_mod_of_dvd k (pow_dvd_pow 2 (by omega))

theorem mod_lt_pow (k n : Nat) : k % 2 ^ n < 2 ^ n :=
  Nat.mod_lt k (Nat.pos_pow_of_pos _ (by omega))

theorem testBit_eq_of_mod_eq {a b m : Nat} (h : a % 2 ^ m = b % 2 ^ m)
    {i : Nat} (hi : i < m) : a.testBit i = b.testBit i := by
  rw [← testBit_mod_pow a hi, ← testBit_mod_pow b hi, h]

/-- Decompose a bounded number by its top bit. -/
theorem decomp_top_bit {rr n : Nat} (h : rr < 2 ^ (n + 1)) :
    rr = (if rr.testBit n then 2 ^ n + rr % 2 ^ n else rr % 2 ^ n) := by
  have := mod_pow_succ_testBit rr n
  rw [Nat.mod_eq_of_lt h] at this
  exact this

end Paths

namespace Eager

/-- Representation predicate for the eager engine: digest `d` is the
root of a fully materialized subtree of height `n` whose leaf at
remaining path `x` (an `n`-bit number, most significant bit first)
holds the 32-byte value `g x`.  Every stored node on the way is
required to be the hash of its own two halves, which the engine
guarantees for every node it writes. -/
def ERep (db : DB) : Nat → Word → (Nat → Nat) → Prop
  | 0, d, g => d = raw (g 0)
  | n + 1, d, g => ∃ l r, dbget db d = some (l, r) ∧ d = sha3 l r ∧
      ERep db n l (fun x => g (x % 2 ^ n)) ∧
      ERep db n r (fun x => g (2 ^ n + x % 2 ^ n))

theorem ERep_ext : ∀ (n : Nat) (db : DB) (d : Word) (g g2 : Nat → Nat),
    (∀ x, x < 2 ^ n → g x = g2 x) → ERep db n d g → ERep db n d g2 := by
  intro n
  induction n with
  | zero =>
    intro db d g g2 hg h
    simp only [ERep] at h ⊢
    rw [h, hg 0 (by omega)]
  | succ n ih =>
    intro db d g g2 hg h
    obtain ⟨l, r, hget, hd, hl, hr⟩ := h
    refine ⟨l, r, hget, hd, ?_, ?_⟩
    · exact ih db l _ _
        (fun x hx => hg (x % 2 ^ n) (lt_of_lt_of_le (Paths.mod_lt_pow x n)
          (by rw [pow_succ]; omega))) hl
    · exact ih db r _ _
        (fun x hx => hg (2 ^ n + x % 2 ^ n)
          (by have := Paths.mod_lt_pow x n; rw [pow_succ]; omega)) hr

theorem dbget_put_self (db : DB) (k : Word) (v : Word × Word) :
    dbget (dbput db k v) k = some v := by
  simp [dbget, dbput, List.find?]

theorem dbget_put_ne (db : DB) (k k2 : Word) (v : Word × Word) (h : k2 ≠ k) :
    dbget (dbput db k v) k2 = dbget db k2 := by
  have : (k == k2) = false := by
    rw [beq_eq_false_iff_ne]
    exact fun he => h he.symm
  simp [dbget, dbput, List.find?, this]

/-- Hash-consistent puts preserve the representation: the new node is
keyed by its own digest, so by hash injectivity it can only shadow an
identical binding. -/
theorem ERep_put : ∀ (n : Nat) (db : DB) (d : Word) (g : Nat → Nat) (a b : Word),
    ERep db n d g → ERep (dbput db (sha3 a b) (a, b)) n d g := by
  intro n
  induction n with
  | zero => intro db d g a b h; exact h
  | succ n ih =>
    intro db d g a b h
    obtain ⟨l, r, hget, hd, hl, hr⟩ := h
    by_cases hk : d = sha3 a b
    · have : (l, r) = (a, b) := by
        rw [hk] at hd
        obtain ⟨h1, h2⟩ := Word.sha3.inj hd.symm
        rw [h1, h2]
      refine ⟨l, r, ?_, hd, ih _ _ _ _ _ hl, ih _ _ _ _ _ hr⟩
      rw [hk, dbget_put_self, this]
    · exact ⟨l, r, by rw [dbget_put_ne db _ _ _ hk]; exact hget, hd,
        ih _ _ _ _ _ hl, ih _ _ _ _ _ hr⟩

/-- Eager `get` returns the represented value. -/
theorem eget_ok : ∀ (n : Nat), n ≤ 256 → ∀ (db : DB) (d : Word) (g : Nat → Nat) (k : Nat),
    ERep db n d g → get_loop db n d (k <<< (256 - n)) = some (raw (g (k % 2 ^ n))) := by
  intro n
  induction n with
  | zero =>
    intro _ db d g k h
    simp only [ERep] at h
    simp [get_loop, h, Nat.mod_one]
  | succ n ih =>
    intro hn db d g k h
    obtain ⟨l, r, hget, hd, hl, hr⟩ := h
    have h255 : 256 - (n + 1) = 255 - n := by omega
    rw [h255]
    simp only [get_loop, hget]
    rw [Paths.shl_one, (by omega : 255 - n + 1 = 256 - n)]
    rcases hb : k.testBit n with hbf | hbt
    · rw [if_neg (by rw [Paths.path_top_bit k n (by omega)]; simp [hb])]
      rw [ih (by omega) db l _ k hl]
      rw [Paths.mod_pow_succ_testBit, hb]
      simp [Nat.mod_mod_of_dvd]
    · rw [if_pos (by rw [Paths.path_top_bit k n (by omega)]; simp [hb])]
      rw [ih (by omega) db r _ k hr]
      rw [Paths.mod_pow_succ_testBit, hb]
      simp [Nat.mod_mod_of_dvd]

end Eager

namespace Paths

theorem low_bit (p n : Nat) : ((p >>> n) &&& 1 = 1) ↔ p.testBit n := by
  rw [Nat.and_one_is_mod, Nat.shiftRight_eq_div_pow, Nat.testBit_to_div_mod,
    decide_eq_true_eq]

theorem mod_succ_of_testBit_false {k n : Nat} (h : k.testBit n = false) :
    k % 2 ^ (n + 1) = k % 2 ^ n := by
  rw [mod_pow_succ_testBit, h]
  simp

theorem mod_succ_of_testBit_true {k n : Nat} (h : k.testBit n = true) :
    k % 2 ^ (n + 1) = 2 ^ n + k % 2 ^ n := by
  rw [mod_pow_succ_testBit, h]
  simp

end Paths

namespace Eager

theorem update_loop_append (xs : List Word) (s : Word) :
    ∀ (p : Nat) (v : Word) (db : DB),
      update_loop (xs ++ [s]) p v db =
        update_loop [s] (p >>> xs.length)
          (update_loop xs p v db).2 (update_loop xs p v db).1 := by
  induction xs with
  | nil =>
    intro p v db
    simp [update_loop]
  | cons a rest ih =>
    intro p v db
    have hsh : (p >>> 1) >>> rest.length = p >>> (a :: rest).length := by
      rw [← Nat.shiftRight_add, Nat.add_comm, List.length_cons]
    by_cases hp : p &&& 1 = 1
    · have hstep : update_loop ((a :: rest) ++ [s]) p v db
          = update_loop (rest ++ [s]) (p >>> 1) (sha3 a v) (dbput db (sha3 a v) (a, v)) := by
        simp only [List.cons_append, update_loop, if_pos hp]
        rfl
      have hstep2 : update_loop (a :: rest) p v db
          = update_loop rest (p >>> 1) (sha3 a v) (dbput db (sha3 a v) (a, v)) := by
        simp only [update_loop, if_pos hp]
      rw [hstep, ih, hstep2, hsh]
    · have hstep : update_loop ((a :: rest) ++ [s]) p v db
          = update_loop (rest ++ [s]) (p >>> 1) (sha3 v a) (dbput db (sha3 v a) (v, a)) := by
        simp only [List.cons_append, update_loop, if_neg hp]
        rfl
      have hstep2 : update_loop (a :: rest) p v db
          = update_loop rest (p >>> 1) (sha3 v a) (dbput db (sha3 v a) (v, a)) := by
        simp only [update_loop, if_neg hp]
      rw [hstep, ih, hstep2, hsh]

theorem update_loop_preserves (xs : List Word) :
    ∀ (p : Nat) (v : Word) (db : DB) (m : Nat) (x : Word) (h : Nat → Nat),
      ERep db m x h → ERep (update_loop xs p v db).1 m x h := by
  induction xs with
  | nil => intro p v db m x h hrep; exact hrep
  | cons a rest ih =>
    intro p v db m x h hrep
    simp only [update_loop]
    by_cases hp : p &&& 1 = 1
    · rw [if_pos hp]
      exact ih _ _ _ _ _ _ (ERep_put _ _ _ _ _ _ hrep)
    · rw [if_neg hp]
      exact ih _ _ _ _ _ _ (ERep_put _ _ _ _ _ _ hrep)

/-- Correctness of the eager two-pass `update` at any level: the
sidenode pass succeeds, collects one sibling per level, and replaying
the write pass yields a root representing the map updated at the key.
The second-pass path `p` only has to agree with the key on the bits
the level consumes. -/
theorem eupdate_ok : ∀ (n : Nat), n ≤ 256 →
    ∀ (db : DB) (d : Word) (g : Nat → Nat) (k v p : Nat),
    ERep db n d g → p % 2 ^ n = k % 2 ^ n →
    ∃ sns, sidenodes_loop db n d (k <<< (256 - n)) = some sns ∧ sns.length = n ∧
      ERep (update_loop sns.reverse p (raw v) db).1 n
        (update_loop sns.reverse p (raw v) db).2
        (fun x => if x = k % 2 ^ n then v else g x) := by
  intro n
  induction n with
  | zero =>
    intro _ db d g k v p _ _
    refine ⟨[], by simp [sidenodes_loop], rfl, ?_⟩
    simp only [List.reverse_nil, update_loop, ERep]
    simp [Nat.mod_one]
  | succ n ih =>
    intro hn db d g k v p hrep hp
    obtain ⟨l, r, hget, hd, hl, hr⟩ := hrep
    have h255 : 256 - (n + 1) = 255 - n := by omega
    have hpn : p % 2 ^ n = k % 2 ^ n := by
      rw [← Paths.mod_mod_pow p n, ← Paths.mod_mod_pow k n, hp]
    have hbit : p.testBit n = k.testBit n :=
      Paths.testBit_eq_of_mod_eq hp (by omega)
    rcases hb : k.testBit n with hbf | hbt
    · -- bit n of the key is 0: go left, sibling is r
      obtain ⟨snsc, hsns, hlen, hupd⟩ := ih (by omega) db l _ k v p hl hpn
      refine ⟨r :: snsc, ?_, by simp [hlen], ?_⟩
      · rw [h255]
        simp only [sidenodes_loop, hget]
        rw [if_neg (by rw [Paths.path_top_bit k n (by omega)]; simp [hb]),
          Paths.shl_one, (by omega : 255 - n + 1 = 256 - n), hsns]
      · have hrev : (r :: snsc).reverse = snsc.reverse ++ [r] := by simp
        rw [hrev, update_loop_append, List.length_reverse, hlen]
        have hlow : ¬ ((p >>> n) &&& 1 = 1) := by
          rw [Paths.low_bit, hbit, hb]
          simp
        simp only [update_loop, if_neg hlow]
        set db2 := (update_loop snsc.reverse p (raw v) db).1 with hdb2
        set w2 := (update_loop snsc.reverse p (raw v) db).2 with hw2
        have hkmod : k % 2 ^ (n + 1) = k % 2 ^ n := Paths.mod_succ_of_testBit_false hb
        refine ⟨w2, r, dbget_put_self _ _ _, rfl, ?_, ?_⟩
        · refine ERep_ext n _ _ _ _ ?_ (ERep_put _ _ _ _ _ _ hupd)
          intro x hx
          have hxx : x % 2 ^ n = x := Nat.mod_eq_of_lt hx
          simp only [hxx, hkmod]
        · refine ERep_ext n _ _ _ _ ?_
            (ERep_put _ _ _ _ _ _ (update_loop_preserves _ _ _ _ _ _ _ hr))
          intro x hx
          have hxx : x % 2 ^ n = x := Nat.mod_eq_of_lt hx
          have hne : 2 ^ n + x ≠ k % 2 ^ (n + 1) := by
            rw [hkmod]
            have := Paths.mod_lt_pow k n
            omega
          simp only [hxx, if_neg hne]
    · -- bit n of the key is 1: go right, sibling is l
      obtain ⟨snsc, hsns, hlen, hupd⟩ := ih (by omega) db r _ k v p hr hpn
      refine ⟨l :: snsc, ?_, by simp [hlen], ?_⟩
      · rw [h255]
        simp only [sidenodes_loop, hget]
        rw [if_pos (by rw [Paths.path_top_bit k n (by omega)]; simp [hb]),
          Paths.shl_one, (by omega : 255 - n + 1 = 256 - n), hsns]
      · have hrev : (l :: snsc).reverse = snsc.reverse ++ [l] := by simp
        rw [hrev, update_loop_append, List.length_reverse, hlen]
        have hlow : (p >>> n) &&& 1 = 1 := by
          rw [Paths.low_bit, hbit, hb]
        simp only [update_loop, if_pos hlow]
        set db2 := (update_loop snsc.reverse p (raw v) db).1 with hdb2
        set w2 := (update_loop snsc.reverse p (raw v) db).2 with hw2
        have hkmod : k % 2 ^ (n + 1) = 2 ^ n + k % 2 ^ n :=
          Paths.mod_succ_of_testBit_true hb
        refine ⟨l, w2, dbget_put_self _ _ _, rfl, ?_, ?_⟩
        · refine ERep_ext n _ _ _ _ ?_
            (ERep_put _ _ _ _ _ _ (update_loop_preserves _ _ _ _ _ _ _ hl))
          intro x hx
          have hxx : x % 2 ^ n = x := Nat.mod_eq_of_lt hx
          have hne : x ≠ k % 2 ^ (n + 1) := by
            rw [hkmod]
            omega
          simp only [hxx, if_neg hne]
        · refine ERep_ext n _ _ _ _ ?_ (ERep_put _ _ _ _ _ _ hupd)
          intro x hx
          have hxx : x % 2 ^ n = x := Nat.mod_eq_of_lt hx
          simp only [hxx, hkmod]
          by_cases hc : x = k % 2 ^ n
          · simp [hc]
          · rw [if_neg hc, if_neg (by omega)]

end Eager

namespace Eager

theorem sidenodes_length : ∀ (n : Nat) (db : DB) (d : Word) (path : Nat) (sns : List Word),
    sidenodes_loop db n d path = some sns → sns.length = n := by
  intro n
  induction n with
  | zero =>
    intro db d path sns h
    simp only [sidenodes_loop, Option.some.injEq] at h
    rw [← h]
    rfl
  | succ n ih =>
    intro db d path sns h
    rcases hget : dbget db d with _ | ⟨l, r⟩
    · simp [sidenodes_loop, hget] at h
    · simp only [sidenodes_loop, hget] at h
      by_cases hb : (path >>> 255) &&& 1 = 1
      · rw [if_pos hb] at h
        rcases hs : sidenodes_loop db n r (path <<< 1) with _ | sns2
        · rw [hs] at h
          simp at h
        · rw [hs] at h
          simp only [Option.some.injEq] at h
          rw [← h]
          simp [ih _ _ _ _ hs]
      · rw [if_neg hb] at h
        rcases hs : sidenodes_loop db n l (path <<< 1) with _ | sns2
        · rw [hs] at h
          simp at h
        · rw [hs] at h
          simp only [Option.some.injEq] at h
          rw [← h]
          simp [ih _ _ _ _ hs]

theorem verify_loop_append (xs : List Word) (s : Word) :
    ∀ (p : Nat) (v : Word),
      verify_loop (xs.length + 1) (xs ++ [s]) p v =
        match verify_loop xs.length xs p v with
        | some w => verify_loop 1 [s] (p >>> xs.length) w
        | none => none := by
  induction xs with
  | nil =>
    intro p v
    simp [verify_loop]
  | cons a rest ih =>
    intro p v
    have hsh : (p >>> 1) >>> rest.length = p >>> (a :: rest).length := by
      rw [← Nat.shiftRight_add, Nat.add_comm, List.length_cons]
    by_cases hp : p &&& 1 = 1
    · have h1 : verify_loop ((a :: rest).length + 1) ((a :: rest) ++ [s]) p v
          = verify_loop (rest.length + 1) (rest ++ [s]) (p >>> 1) (sha3 a v) := by
        simp only [List.cons_append, List.length_cons, verify_loop, if_pos hp]
      have h2 : verify_loop (a :: rest).length (a :: rest) p v
          = verify_loop rest.length rest (p >>> 1) (sha3 a v) := by
        simp only [List.length_cons, verify_loop, if_pos hp]
      rw [h1, ih, h2, hsh]
    · have h1 : verify_loop ((a :: rest).length + 1) ((a :: rest) ++ [s]) p v
          = verify_loop (rest.length + 1) (rest ++ [s]) (p >>> 1) (sha3 v a) := by
        simp only [List.cons_append, List.length_cons, verify_loop, if_neg hp]
      have h2 : verify_loop (a :: rest).length (a :: rest) p v
          = verify_loop rest.length rest (p >>> 1) (sha3 v a) := by
        simp only [List.length_cons, verify_loop, if_neg hp]
      rw [h1, ih, h2, hsh]

/-- Replaying `verify_proof`'s fold on the sidenodes collected along a
represented path reconstructs the root digest. -/
theorem everify_of_rep : ∀ (n : Nat), n ≤ 256 →
    ∀ (db : DB) (d : Word) (g : Nat → Nat) (k p : Nat) (sns : List Word),
    ERep db n d g → p % 2 ^ n = k % 2 ^ n →
    sidenodes_loop db n d (k <<< (256 - n)) = some sns →
    verify_loop n sns.reverse p (raw (g (k % 2 ^ n))) = some d := by
  intro n
  induction n with
  | zero =>
    intro _ db d g k p sns hrep _ hsns
    simp only [sidenodes_loop, Option.some.injEq] at hsns
    rw [← hsns]
    simp only [ERep] at hrep
    simp [verify_loop, hrep, Nat.mod_one]
  | succ n ih =>
    intro hn db d g k p sns hrep hp hsns
    obtain ⟨l, r, hget, hd, hl, hr⟩ := hrep
    have h255 : 256 - (n + 1) = 255 - n := by omega
    have hpn : p % 2 ^ n = k % 2 ^ n := by
      rw [← Paths.mod_mod_pow p n, ← Paths.mod_mod_pow k n, hp]
    have hbit : p.testBit n = k.testBit n :=
      Paths.testBit_eq_of_mod_eq hp (by omega)
    rw [h255] at hsns
    simp only [sidenodes_loop, hget] at hsns
    rcases hb : k.testBit n with hbf | hbt
    · rw [if_neg (by rw [Paths.path_top_bit k n (by omega)]; simp [hb]),
        Paths.shl_one, (by omega : 255 - n + 1 = 256 - n)] at hsns
      rcases hs : sidenodes_loop db n l (k <<< (256 - n)) with _ | snsc
      · rw [hs] at hsns
        simp at hsns
      · rw [hs] at hsns
        simp only [Option.some.injEq] at hsns
        rw [← hsns]
        have hlenc : snsc.length = n := sidenodes_length _ _ _ _ _ hs
        have hrev : (r :: snsc).reverse = snsc.reverse ++ [r] := by simp
        have hlenr : snsc.reverse.length = n := by simp [hlenc]
        rw [hrev, (by rw [hlenr] : n + 1 = snsc.reverse.length + 1),
          verify_loop_append, hlenr]
        have hkv : g (k % 2 ^ (n + 1)) = g (k % 2 ^ n) := by
          rw [Paths.mod_succ_of_testBit_false hb]
        rw [hkv]
        have hinner := ih (by omega) db l _ k p snsc hl hpn hs
        rw [Nat.mod_mod_of_dvd k dvd_rfl] at hinner
        rw [hinner]
        have hlow : ¬ ((p >>> n) &&& 1 = 1) := by
          rw [Paths.low_bit, hbit, hb]
          simp
        simp only [verify_loop, if_neg hlow]
        rw [← hd]
    · rw [if_pos (by rw [Paths.path_top_bit k n (by omega)]; simp [hb]),
        Paths.shl_one, (by omega : 255 - n + 1 = 256 - n)] at hsns
      rcases hs : sidenodes_loop db n r (k <<< (256 - n)) with _ | snsc
      · rw [hs] at hsns
        simp at hsns
      · rw [hs] at hsns
        simp only [Option.some.injEq] at hsns
        rw [← hsns]
        have hlenc : snsc.length = n := sidenodes_length _ _ _ _ _ hs
        have hrev : (l :: snsc).reverse = snsc.reverse ++ [l] := by simp
        have hlenr : snsc.reverse.length = n := by simp [hlenc]
        rw [hrev, (by rw [hlenr] : n + 1 = snsc.reverse.length + 1),
          verify_loop_append, hlenr]
        have hkv : g (k % 2 ^ (n + 1)) = g (2 ^ n + k % 2 ^ n) := by
          rw [Paths.mod_succ_of_testBit_true hb]
        rw [hkv]
        have hinner := ih (by omega) db r _ k p snsc hr hpn hs
        rw [Nat.mod_mod_of_dvd k dvd_rfl] at hinner
        rw [hinner]
        have hlow : (p >>> n) &&& 1 = 1 := by
          rw [Paths.low_bit, hbit, hb]
        simp only [verify_loop, if_pos hlow]
        rw [← hd]

end Eager

namespace Eager

theorem zhN_succ_eq (m : Nat) : sha3 (zhN m) (zhN m) = zhN (m + 1) := rfl

/-- Characterization of the `new_tree` loop: starting from the zero
hash of height `m` it writes one duplicated node per level, most
recent first, and returns the zero hash of height `m + n`. -/
theorem new_tree_loop_eq : ∀ (n m : Nat) (db : DB),
    new_tree_loop n db (zhN m) =
      ((List.range n).map
        (fun i => (zhN (m + n - i), (zhN (m + n - i - 1), zhN (m + n - i - 1)))) ++ db,
        zhN (m + n)) := by
  intro n
  induction n with
  | zero => intro m db; simp [new_tree_loop]
  | succ n ih =>
    intro m db
    have hstep : new_tree_loop (n + 1) db (zhN m)
        = new_tree_loop n (dbput db (zhN (m + 1)) (zhN m, zhN m)) (zhN (m + 1)) := by
      simp only [new_tree_loop, zhN_succ_eq]
    rw [hstep, ih (m + 1)]
    have hroot : m + 1 + n = m + (n + 1) := by omega
    have hlist : (List.range (n + 1)).map
        (fun i => (zhN (m + (n + 1) - i), (zhN (m + (n + 1) - i - 1), zhN (m + (n + 1) - i - 1))))
        = ((List.range n).map
            (fun i => (zhN (m + 1 + n - i), (zhN (m + 1 + n - i - 1), zhN (m + 1 + n - i - 1)))))
          ++ [(zhN (m + 1), (zhN m, zhN m))] := by
      rw [List.range_succ, List.map_append]
      congr 1
      · refine List.map_congr_left ?_
        intro i _
        have h1 : m + (n + 1) - i = m + 1 + n - i := by omega
        rw [h1]
      · have h1 : m + (n + 1) - n = m + 1 := by omega
        have h2 : m + (n + 1) - n - 1 = m := by omega
        simp [h1, h2]
    rw [hlist, hroot]
    simp [dbput, List.append_assoc]

theorem dbget_map_range :
    ∀ (n : Nat) (key : Nat → Word) (f : Nat → Word × Word),
      (∀ i j, i < n → j < n → key i = key j → i = j) →
      ∀ j, j < n →
        dbget ((List.range n).map (fun i => (key i, f i))) (key j) = some (f j) := by
  intro n
  induction n with
  | zero => intro _ _ _ j hj; omega
  | succ n ih =>
    intro key f hinj j hj
    rw [List.range_succ_eq_map]
    simp only [List.map_cons, List.map_map]
    rcases j with _ | j
    · exact dbget_put_self _ _ _
    · have hne : key (j + 1) ≠ key 0 := by
        intro he
        have := hinj (j + 1) 0 hj (by omega) he
        omega
      rw [show ((key 0, f 0) :: (List.range n).map ((fun i => (key i, f i)) ∘ Nat.succ))
            = dbput ((List.range n).map ((fun i => (key i, f i)) ∘ Nat.succ)) (key 0) (f 0)
          from rfl,
        dbget_put_ne _ _ _ _ hne]
      have hcomp : (List.range n).map ((fun i => (key i, f i)) ∘ Nat.succ)
          = (List.range n).map (fun i => ((fun a => key (a + 1)) i, (fun a => f (a + 1)) i)) := rfl
      rw [hcomp]
      exact ih (fun a => key (a + 1)) (fun a => f (a + 1))
        (fun a b ha hb he => by
          have := hinj (a + 1) (b + 1) (by omega) (by omega) he
          omega)
        j (by omega)

/-- The eager empty tree represents the all-zero map: the loop has
written the duplicated zero node of every level. -/
theorem erep_zh : ∀ (n : Nat) (db : DB),
    (∀ m, m < n → dbget db (zhN (m + 1)) = some (zhN m, zhN m)) →
    ERep db n (zhN n) (fun _ => 0) := by
  intro n
  induction n with
  | zero => intro db _; rfl
  | succ n ih =>
    intro db hdb
    exact ⟨zhN n, zhN n, hdb n (by omega), rfl,
      ih db (fun m hm => hdb m (by omega)),
      ih db (fun m hm => hdb m (by omega))⟩

theorem new_tree_store_list : (new_tree []).1 =
    (List.range 256).map
      (fun i => (zhN (256 - i), (zhN (256 - i - 1), zhN (256 - i - 1)))) := by
  rw [new_tree, show (raw 0 : Word) = zhN 0 from rfl, new_tree_loop_eq 256 0 []]
  simp

theorem new_tree_store_get (m : Nat) (hm : m < 256) :
    dbget (new_tree []).1 (zhN (m + 1)) = some (zhN m, zhN m) := by
  rw [new_tree_store_list]
  have hj := dbget_map_range 256 (fun i => zhN (256 - i))
    (fun i => (zhN (256 - i - 1), zhN (256 - i - 1)))
    (fun i j hi hj he => by
      have := zhN_inj he
      omega)
    (255 - m) (by omega)
  have hj2 : dbget ((List.range 256).map
      (fun i => (zhN (256 - i), (zhN (256 - i - 1), zhN (256 - i - 1)))))
      (zhN (256 - (255 - m))) = some (zhN (256 - (255 - m) - 1), zhN (256 - (255 - m) - 1)) := hj
  have hk : 256 - (255 - m) = m + 1 := by omega
  rw [hk, Nat.add_sub_cancel] at hj2
  exact hj2

theorem new_tree_rep : ERep (new_tree []).1 256 (new_tree []).2 (fun _ => 0) := by
  have hroot : (new_tree []).2 = zhN 256 := by
    rw [new_tree, show (raw 0 : Word) = zhN 0 from rfl, new_tree_loop_eq 256 0 []]
  rw [hroot]
  exact erep_zh 256 _ (fun m hm => new_tree_store_get m hm)

/-- Store-wide hash consistency: every stored 64-byte node is keyed by
the hash of its own halves.  Both `new_tree` and `update` only write
such bindings. -/
def Good (db : DB) : Prop := ∀ x l r, dbget db x = some (l, r) → x = sha3 l r

theorem Good_put {db : DB} (a b : Word) (h : Good db) :
    Good (dbput db (sha3 a b) (a, b)) := by
  intro x l r hx
  by_cases hk : x = sha3 a b
  · rw [hk, dbget_put_self] at hx
    obtain ⟨h1, h2⟩ := Prod.mk.inj (Option.some.inj hx)
    rw [hk, ← h1, ← h2]
  · rw [dbget_put_ne _ _ _ _ hk] at hx
    exact h x l r hx

theorem update_loop_good (xs : List Word) :
    ∀ (p : Nat) (v : Word) (db : DB), Good db → Good (update_loop xs p v db).1 := by
  induction xs with
  | nil => intro p v db h; exact h
  | cons a rest ih =>
    intro p v db h
    simp only [update_loop]
    by_cases hp : p &&& 1 = 1
    · rw [if_pos hp]
      exact ih _ _ _ (Good_put _ _ h)
    · rw [if_neg hp]
      exact ih _ _ _ (Good_put _ _ h)

theorem new_tree_good : Good (new_tree []).1 := by
  intro x l r hx
  rcases hfind : ((new_tree []).1).find? (fun e => e.1 == x) with _ | e
  · rw [dbget, hfind] at hx
    simp at hx
  · rw [dbget, hfind] at hx
    have hkey := List.find?_some hfind
    have hmem : e ∈ (new_tree []).1 := List.mem_of_find?_eq_some hfind
    rw [new_tree_store_list] at hmem
    obtain ⟨i, hi, hei⟩ := List.mem_map.mp hmem
    have hxe : x = e.1 := (beq_iff_eq.mp hkey).symm
    have hil : i < 256 := List.mem_range.mp hi
    have hx2 : e.2 = (l, r) := by simpa using hx
    have he1 : e.1 = zhN (256 - i) := by rw [← hei]
    have he2b : (l, r) = (zhN (256 - i - 1), zhN (256 - i - 1)) := by
      rw [← hx2, ← hei]
    obtain ⟨hl2, hr2⟩ := Prod.mk.inj he2b
    have hsplit : 256 - i = (256 - i - 1) + 1 := by omega
    rw [hxe, he1, hsplit, ← zhN_succ_eq, hl2, hr2]

/-- Roots reachable in the eager engine: the empty tree built by
`new_tree` on an empty store, extended by successful updates with
32-byte keys and values. -/
inductive Reach : DB → Word → Prop where
  | base : Reach (new_tree []).1 (new_tree []).2
  | step : ∀ {db r k v db2 r2}, Reach db r → k < 2 ^ 256 → v < 2 ^ 256 →
      update db r k v = some (db2, r2) → Reach db2 r2

theorem reach_good : ∀ {db r}, Reach db r → Good db := by
  intro db r h
  induction h with
  | base => exact new_tree_good
  | step hre hk hv hupd ih =>
    rename_i db0 r0 k v db2 r2
    rw [update] at hupd
    rcases hsns : sidenodes_loop db0 256 r0 (key_to_path k) with _ | sns
    · rw [hsns] at hupd
      simp at hupd
    · rw [hsns] at hupd
      simp only [Option.some.injEq] at hupd
      have := update_loop_good sns.reverse (key_to_path k) (raw v) db0 ih
      rw [hupd] at this
      exact this

theorem reach_rep : ∀ {db r}, Reach db r → ∃ g, ERep db 256 r g := by
  intro db r h
  induction h with
  | base => exact ⟨fun _ => 0, new_tree_rep⟩
  | step hre hk hv hupd ih =>
    rename_i db0 r0 k v db2 r2
    obtain ⟨g, hg⟩ := ih
    obtain ⟨sns, hsns, hlen, hupd2⟩ :=
      eupdate_ok 256 le_rfl db0 r0 g k v k hg rfl
    rw [Nat.sub_self, Nat.shiftLeft_zero] at hsns
    simp only [update, key_to_path] at hupd
    rw [hsns] at hupd
    simp only [Option.some.injEq] at hupd
    have hdb : (update_loop sns.reverse k (raw v) db0).1 = db2 := congrArg Prod.fst hupd
    have hr2 : (update_loop sns.reverse k (raw v) db0).2 = r2 := congrArg Prod.snd hupd
    refine ⟨fun x => if x = k % 2 ^ 256 then v else g x, ?_⟩
    rw [← hdb, ← hr2]
    exact hupd2

end Eager

namespace Eager

theorem update_loop_dbget_preserved (xs : List Word) :
    ∀ (p : Nat) (v : Word) (db : DB) (x : Word) (c : Word × Word), Good db →
      dbget db x = some c → dbget (update_loop xs p v db).1 x = some c := by
  induction xs with
  | nil => intro p v db x c _ h; exact h
  | cons a rest ih =>
    intro p v db x c hgood h
    obtain ⟨cl, cr⟩ := c
    have hput : ∀ (s t : Word), dbget (dbput db (sha3 s t) (s, t)) x = some (cl, cr) := by
      intro s t
      by_cases hk : x = sha3 s t
      · have hx : x = sha3 cl cr := hgood x cl cr h
        have : (s, t) = (cl, cr) := by
          rw [hx] at hk
          obtain ⟨h1, h2⟩ := Word.sha3.inj hk.symm
          rw [h1, h2]
        rw [hk, dbget_put_self, this]
      · rw [dbget_put_ne _ _ _ _ hk]
        exact h
    simp only [update_loop]
    by_cases hp : p &&& 1 = 1
    · rw [if_pos hp]
      exact ih _ _ _ _ _ (Good_put _ _ hgood) (hput a v)
    · rw [if_neg hp]
      exact ih _ _ _ _ _ (Good_put _ _ hgood) (hput v a)

theorem get_loop_mono : ∀ (n : Nat) (db db2 : DB) (d : Word) (path : Nat) (w : Word),
    (∀ x c, dbget db x = some c → dbget db2 x = some c) →
    get_loop db n d path = some w → get_loop db2 n d path = some w := by
  intro n
  induction n with
  | zero => intro db db2 d path w _ h; exact h
  | succ n ih =>
    intro db db2 d path w hmono h
    rcases hget : dbget db d with _ | ⟨l, r⟩
    · simp [get_loop, hget] at h
    · simp only [get_loop, hget] at h
      simp only [get_loop, hmono d (l, r) hget]
      by_cases hb : (path >>> 255) &&& 1 = 1
      · rw [if_pos hb] at h ⊢
        exact ih _ _ _ _ _ hmono h
      · rw [if_neg hb] at h ⊢
        exact ih _ _ _ _ _ hmono h

end Eager

/-- Claim C9: `new_tree` of the eager engine writes 256 internal
nodes, one per depth, each the duplication of the depth-below zero
hash, and returns `zerohashes 0`; the compact engine's `new_tree`
returns `zerohashes 0` without writing anything. -/
theorem claim_new_tree_root (db : Eager.DB) (dbc : Compact.DB) :
    (Eager.new_tree db).2 = zerohashes 0 ∧
    (Eager.new_tree db).1 = (List.range 256).map
      (fun i => (zerohashes i, (zerohashes (i + 1), zerohashes (i + 1)))) ++ db ∧
    Compact.new_tree dbc = zerohashes 0 := by
  have hloop := Eager.new_tree_loop_eq 256 0 db
  have hz : (raw 0 : Word) = zhN 0 := rfl
  refine ⟨?_, ?_, rfl⟩
  · rw [Eager.new_tree, hz, hloop]
    rfl
  · rw [Eager.new_tree, hz, hloop]
    show _ ++ db = _ ++ db
    congr 1

/-- Claim C4: for a root reached by eager updates whose last update
wrote value `v` at key `k`, the Merkle proof extracted for `k` from
the resulting store verifies against the new root and `v`. -/
theorem claim_proof_soundness (db : Eager.DB) (r : Word) (k v : Nat)
    (hre : Eager.Reach db r) (hk : k < 2 ^ 256) (hv : v < 2 ^ 256) :
    match Eager.update db r k v with
    | some (db2, r2) =>
        (Eager.make_merkle_proof db2 r2 k).map
          (fun pf => Eager.verify_proof pf r2 k (raw v)) = some (some true)
    | none => False := by
  obtain ⟨g, hg⟩ := Eager.reach_rep hre
  obtain ⟨sns, hsns, hlen, hupd2⟩ := Eager.eupdate_ok 256 le_rfl db r g k v k hg rfl
  rw [Nat.sub_self, Nat.shiftLeft_zero] at hsns
  have hueq : Eager.update db r k v
      = some (Eager.update_loop sns.reverse k (raw v) db) := by
    simp only [Eager.update, Eager.key_to_path, hsns]
  rcases hud : Eager.update_loop sns.reverse k (raw v) db with ⟨db2, r2⟩
  rw [hud] at hueq hupd2
  simp only at hupd2
  rw [hueq]
  show (Eager.make_merkle_proof db2 r2 k).map
    (fun pf => Eager.verify_proof pf r2 k (raw v)) = some (some true)
  obtain ⟨sns2, hsns2, hlen2, _⟩ := Eager.eupdate_ok 256 le_rfl db2 r2 _ k v k hupd2 rfl
  rw [Nat.sub_self, Nat.shiftLeft_zero] at hsns2
  have hmp : Eager.make_merkle_proof db2 r2 k = some sns2 := by
    simp only [Eager.make_merkle_proof, Eager.key_to_path, hsns2]
  rw [hmp]
  have hfold := Eager.everify_of_rep 256 le_rfl db2 r2 _ k k sns2 hupd2 rfl
    (by rw [Nat.sub_self, Nat.shiftLeft_zero]; exact hsns2)
  have hval : (if k % 2 ^ 256 = k % 2 ^ 256 then v else g (k % 2 ^ 256)) = v := by
    rw [if_pos rfl]
  rw [hval] at hfold
  have hvp : Eager.verify_proof sns2 r2 k (raw v) = some (r2 == r2) := by
    simp only [Eager.verify_proof, Eager.key_to_path, hfold]
  rw [Option.map_some', hvp, beq_self_eq_true]

/-- Claim C4 witness: the empty tree is reachable and a concrete
update's proof verifies. -/
theorem claim_proof_soundness_witness :
    Eager.Reach (Eager.new_tree []).1 (Eager.new_tree []).2 ∧
    (5 : Nat) < 2 ^ 256 ∧ (7 : Nat) < 2 ^ 256 ∧
    (match Eager.update (Eager.new_tree []).1 (Eager.new_tree []).2 5 7 with
     | some (db2, r2) =>
         (Eager.make_merkle_proof db2 r2 5).map
           (fun pf => Eager.verify_proof pf r2 5 (raw 7)) = some (some true)
     | none => False) :=
  ⟨Eager.Reach.base, by decide, by decide,
    claim_proof_soundness _ _ 5 7 Eager.Reach.base (by decide) (by decide)⟩

namespace Compact

/-- Root digest of a subtree of height `n` holding exactly one leaf,
at remaining path `rr` (an `n`-bit number), with 32-byte value `v`.
This is `make_single_key_hash` re-indexed by the key bits instead of
the running shifted path. -/
def singleRoot : Nat → Nat → Nat → Word
  | 0, _, v => raw v
  | n + 1, rr, v =>
    if rr.testBit n then sha3 (zhN n) (singleRoot n (rr % 2 ^ n) v)
    else sha3 (singleRoot n (rr % 2 ^ n) v) (zhN n)

theorem singleRoot_zero_val : ∀ (n rr : Nat), singleRoot n rr 0 = zhN n := by
  intro n
  induction n with
  | zero => intro rr; rfl
  | succ n ih =>
    intro rr
    rcases h : rr.testBit n <;> simp [singleRoot, h, ih, zhN]

theorem singleRoot_ne_zhN : ∀ (n rr m : Nat) (v : Nat), v ≠ 0 →
    singleRoot n rr v ≠ zhN m := by
  intro n
  induction n with
  | zero =>
    intro rr m v hv
    rcases m with _ | m
    · intro h
      exact hv (Word.raw.inj h)
    · intro h
      simp [singleRoot, zhN] at h
  | succ n ih =>
    intro rr m v hv
    rcases m with _ | m
    · rcases h : rr.testBit n <;> simp [singleRoot, h, zhN]
    · rcases h : rr.testBit n
      · simp only [singleRoot, h, if_neg Bool.false_ne_true, zhN]
        intro he
        obtain ⟨h1, _⟩ := Word.sha3.inj he
        exact ih (rr % 2 ^ n) m v hv h1
      · simp only [singleRoot, h, if_pos rfl, zhN]
        intro he
        obtain ⟨_, h2⟩ := Word.sha3.inj he
        exact ih (rr % 2 ^ n) m v hv h2

theorem singleRoot_inj : ∀ (n m rr ss v w : Nat), v ≠ 0 → w ≠ 0 →
    rr < 2 ^ n → ss < 2 ^ m →
    singleRoot n rr v = singleRoot m ss w → n = m ∧ rr = ss ∧ v = w := by
  intro n
  induction n with
  | zero =>
    intro m rr ss v w hv hw hrr hss h
    rcases m with _ | m
    · simp only [singleRoot] at h
      refine ⟨rfl, by omega, Word.raw.inj h⟩
    · exfalso
      rcases hb : ss.testBit m
      · simp [singleRoot, hb] at h
      · simp [singleRoot, hb] at h
  | succ n ih =>
    intro m rr ss v w hv hw hrr hss h
    rcases m with _ | m
    · exfalso
      rcases hb : rr.testBit n
      · simp [singleRoot, hb] at h
      · simp [singleRoot, hb] at h
    · rcases hb1 : rr.testBit n <;> rcases hb2 : ss.testBit m
      · simp only [singleRoot, hb1, hb2, Bool.false_eq_true, if_false] at h
        obtain ⟨h1, h2⟩ := Word.sha3.inj h
        obtain ⟨hnm, hrs, hvw⟩ := ih m (rr % 2 ^ n) (ss % 2 ^ m) v w hv hw
          (Paths.mod_lt_pow rr n) (Paths.mod_lt_pow ss m) h1
        subst hnm
        refine ⟨rfl, ?_, hvw⟩
        have hd1 := Paths.decomp_top_bit hrr
        have hd2 := Paths.decomp_top_bit hss
        rw [hb1] at hd1
        rw [hb2] at hd2
        simp at hd1 hd2
        omega
      · exfalso
        simp only [singleRoot, hb1, hb2, Bool.false_eq_true, if_false, if_true] at h
        obtain ⟨h1, _⟩ := Word.sha3.inj h
        exact singleRoot_ne_zhN n (rr % 2 ^ n) m v hv h1
      · exfalso
        simp only [singleRoot, hb1, hb2, Bool.false_eq_true, if_false, if_true] at h
        obtain ⟨h1, _⟩ := Word.sha3.inj h
        exact singleRoot_ne_zhN m (ss % 2 ^ m) n w hw h1.symm
      · simp only [singleRoot, hb1, hb2, if_true] at h
        obtain ⟨h1, h2⟩ := Word.sha3.inj h
        have hnm : n = m := zhN_inj h1
        subst hnm
        obtain ⟨_, hrs, hvw⟩ := ih n (rr % 2 ^ n) (ss % 2 ^ n) v w hv hw
          (Paths.mod_lt_pow rr n) (Paths.mod_lt_pow ss n) h2
        refine ⟨rfl, ?_, hvw⟩
        have hd1 := Paths.decomp_top_bit hrr
        have hd2 := Paths.decomp_top_bit hss
        rw [hb1] at hd1
        rw [hb2] at hd2
        simp at hd1 hd2
        omega

/-- `make_single_key_hash` on a path in invariant form computes
`singleRoot` of the key's low bits. -/
theorem mskh_eq_singleRoot : ∀ (n : Nat), n ≤ 256 → ∀ (k v : Nat),
    make_single_key_hash_fuel n (k <<< (256 - n)) v = singleRoot n (k % 2 ^ n) v := by
  intro n
  induction n with
  | zero => intro _ k v; rfl
  | succ n ih =>
    intro hn k v
    have h255 : 256 - (n + 1) = 255 - n := by omega
    rw [h255]
    simp only [make_single_key_hash_fuel]
    rw [Paths.shl_one, (by omega : 255 - n + 1 = 256 - n), ih (by omega) k v]
    have hbit : (k % 2 ^ (n + 1)).testBit n = k.testBit n :=
      Paths.testBit_mod_pow k (by omega)
    rcases hb : k.testBit n
    · rw [if_neg (by rw [Paths.path_top_bit k n (by omega)]; simp [hb])]
      rw [singleRoot, hbit, hb, Paths.mod_mod_pow]
      simp
    · rw [if_pos (by rw [Paths.path_top_bit k n (by omega)]; simp [hb])]
      rw [singleRoot, hbit, hb, Paths.mod_mod_pow]
      simp

end Compact


namespace Compact

theorem cdbget_put_self (db : DB) (k : Word) (v : Node) :
    dbget (dbput db k v) k = some v := by
  simp [dbget, dbput, List.find?]

theorem cdbget_put_ne (db : DB) (k k2 : Word) (v : Node) (h : k2 ≠ k) :
    dbget (dbput db k v) k2 = dbget db k2 := by
  have : (k == k2) = false := by
    rw [beq_eq_false_iff_ne]
    exact fun he => h he.symm
  simp [dbget, dbput, List.find?, this]

/-- `singleRoot` at positive height is always a `sha3` node. -/
theorem singleRoot_succ_shape (n rr v : Nat) :
    ∃ a b, singleRoot (n + 1) rr v = sha3 a b := by
  rcases hb : rr.testBit n
  · refine ⟨singleRoot n (rr % 2 ^ n) v, zhN n, ?_⟩
    rw [singleRoot, hb]
    simp
  · refine ⟨zhN n, singleRoot n (rr % 2 ^ n) v, ?_⟩
    rw [singleRoot, hb]
    simp

/-- Representation predicate for the compact engine: digest `d` stands
for a subtree of height `n` whose leaf at remaining path `x` holds
`g x`.  The three cases mirror exactly the three cases the engine
distinguishes, in the same priority order: the zero hash of the level
(all-zero subtree, store ignored), a stored 65-byte single-leaf node
(with the path field holding the remaining path shifted into position,
and the digest equal to the single-leaf subtree root), or a stored
64-byte internal node hashed from its own two halves. -/
def Rep (db : DB) : Nat → Word → (Nat → Nat) → Prop
  | 0, d, g => d = raw (g 0)
  | n + 1, d, g =>
    if d = zhN (n + 1) then ∀ x, x < 2 ^ (n + 1) → g x = 0
    else
      match dbget db d with
      | none => False
      | some (.pair l r) => d = sha3 l r ∧
          Rep db n l (fun x => g (x % 2 ^ n)) ∧
          Rep db n r (fun x => g (2 ^ n + x % 2 ^ n))
      | some (.leaf p v) => ∃ rr, rr < 2 ^ (n + 1) ∧ p = rr <<< (255 - n) ∧
          d = singleRoot (n + 1) rr v ∧
          ∀ x, x < 2 ^ (n + 1) → g x = if x = rr then v else 0

theorem Rep_succ_zh {db : DB} {n : Nat} {d : Word} {g : Nat → Nat}
    (hz : d = zhN (n + 1)) :
    Rep db (n + 1) d g ↔ (∀ x, x < 2 ^ (n + 1) → g x = 0) := by
  simp only [Rep, if_pos hz]

theorem Rep_succ_miss {db : DB} {n : Nat} {d : Word} {g : Nat → Nat}
    (hz : d ≠ zhN (n + 1)) (hget : dbget db d = none) :
    ¬ Rep db (n + 1) d g := by
  intro h
  simp only [Rep, if_neg hz, hget] at h

theorem Rep_succ_pair {db : DB} {n : Nat} {d : Word} {g : Nat → Nat} {l r : Word}
    (hz : d ≠ zhN (n + 1)) (hget : dbget db d = some (.pair l r)) :
    Rep db (n + 1) d g ↔ (d = sha3 l r ∧
      Rep db n l (fun x => g (x % 2 ^ n)) ∧
      Rep db n r (fun x => g (2 ^ n + x % 2 ^ n))) := by
  simp only [Rep, if_neg hz, hget]

theorem Rep_succ_leaf {db : DB} {n : Nat} {d : Word} {g : Nat → Nat} {p v : Nat}
    (hz : d ≠ zhN (n + 1)) (hget : dbget db d = some (.leaf p v)) :
    Rep db (n + 1) d g ↔ (∃ rr, rr < 2 ^ (n + 1) ∧ p = rr <<< (255 - n) ∧
      d = singleRoot (n + 1) rr v ∧
      ∀ x, x < 2 ^ (n + 1) → g x = if x = rr then v else 0) := by
  simp only [Rep, if_neg hz, hget]

theorem Rep_zero {db : DB} {d : Word} {g : Nat → Nat} :
    Rep db 0 d g ↔ d = raw (g 0) := by
  simp only [Rep]

theorem Rep_ext : ∀ (n : Nat) (db : DB) (d : Word) (g g2 : Nat → Nat),
    (∀ x, x < 2 ^ n → g x = g2 x) → Rep db n d g → Rep db n d g2 := by
  intro n
  induction n with
  | zero =>
    intro db d g g2 hg h
    rw [Rep_zero] at h ⊢
    rw [h, hg 0 (by omega)]
  | succ n ih =>
    intro db d g g2 hg h
    by_cases hz : d = zhN (n + 1)
    · rw [Rep_succ_zh hz] at h ⊢
      intro x hx
      rw [← hg x hx]
      exact h x hx
    · rcases hget : dbget db d with _ | (⟨l, r⟩ | ⟨p, v⟩)
      · exact absurd h (Rep_succ_miss hz hget)
      · rw [Rep_succ_pair hz hget] at h ⊢
        obtain ⟨hd, hl, hr⟩ := h
        refine ⟨hd, ?_, ?_⟩
        · exact ih db l _ _
            (fun x hx => hg (x % 2 ^ n) (lt_of_lt_of_le (Paths.mod_lt_pow x n)
              (by rw [pow_succ]; omega))) hl
        · exact ih db r _ _
            (fun x hx => hg (2 ^ n + x % 2 ^ n)
              (by have := Paths.mod_lt_pow x n; rw [pow_succ]; omega)) hr
      · rw [Rep_succ_leaf hz hget] at h ⊢
        obtain ⟨rr, hrr, hp, hd, hval⟩ := h
        exact ⟨rr, hrr, hp, hd, fun x hx => by rw [← hg x hx]; exact hval x hx⟩

/-- An all-zero map is represented by the level's zero hash. -/
theorem Rep_zhN (db : DB) (n : Nat) (g : Nat → Nat)
    (hg : ∀ x, x < 2 ^ n → g x = 0) : Rep db n (zhN n) g := by
  cases n with
  | zero =>
    rw [Rep_zero, hg 0 (by omega)]
    rfl
  | succ n => exact (Rep_succ_zh rfl).mpr hg

/-- A zero hash represents only at its own level, and only zeros. -/
theorem Rep_zh_forces : ∀ (j k : Nat) (db : DB) (g : Nat → Nat),
    Rep db j (zhN k) g → k = j ∧ ∀ x, x < 2 ^ j → g x = 0 := by
  intro j
  induction j with
  | zero =>
    intro k db g h
    rw [Rep_zero] at h
    rcases k with _ | k
    · refine ⟨rfl, fun x hx => ?_⟩
      have h0 : x = 0 := by omega
      subst h0
      have := Word.raw.inj h
      omega
    · exact absurd h (by simp [zhN])
  | succ j ih =>
    intro k db g h
    by_cases hz : zhN k = zhN (j + 1)
    · rw [Rep_succ_zh hz] at h
      exact ⟨zhN_inj hz, h⟩
    · exfalso
      rcases hget : dbget db (zhN k) with _ | (⟨l, r⟩ | ⟨p, v⟩)
      · exact Rep_succ_miss hz hget h
      · rw [Rep_succ_pair hz hget] at h
        obtain ⟨hd, hl, _⟩ := h
        rcases k with _ | k2
        · exact Word.noConfusion hd
        · have hd2 : sha3 (zhN k2) (zhN k2) = sha3 l r := hd
          obtain ⟨h1, _⟩ := Word.sha3.inj hd2
          rw [← h1] at hl
          obtain ⟨hk2, _⟩ := ih k2 db _ hl
          exact hz (by rw [hk2])
      · rw [Rep_succ_leaf hz hget] at h
        obtain ⟨rr, hrr, hp, hd, _⟩ := h
        by_cases hv : v = 0
        · rw [hv, singleRoot_zero_val] at hd
          exact hz hd
        · exact singleRoot_ne_zhN (j + 1) rr k v hv hd.symm

/-- A single-leaf subtree root with non-zero value represents only at
its own height, and only the singleton map. -/
theorem Rep_singleRoot_forces : ∀ (n j rr v : Nat) (db : DB) (g : Nat → Nat),
    v ≠ 0 → rr < 2 ^ n → Rep db j (singleRoot n rr v) g →
    j = n ∧ ∀ x, x < 2 ^ j → g x = if x = rr then v else 0 := by
  intro n
  induction n with
  | zero =>
    intro j rr v db g hv hrr h
    rcases j with _ | j
    · rw [Rep_zero] at h
      simp only [singleRoot] at h
      refine ⟨rfl, fun x hx => ?_⟩
      have hx0 : x = 0 := by omega
      have hrr0 : rr = 0 := by omega
      subst hx0
      subst hrr0
      have := Word.raw.inj h
      simp
      omega
    · exfalso
      simp only [singleRoot] at h
      have hz : raw v ≠ zhN (j + 1) := by simp [zhN]
      rcases hget : dbget db (raw v) with _ | (⟨l, r⟩ | ⟨p, v2⟩)
      · exact Rep_succ_miss hz hget h
      · rw [Rep_succ_pair hz hget] at h
        exact Word.noConfusion h.1
      · rw [Rep_succ_leaf hz hget] at h
        obtain ⟨rr2, _, _, hd, _⟩ := h
        obtain ⟨a, b, hab⟩ := singleRoot_succ_shape j rr2 v2
        rw [hab] at hd
        exact Word.noConfusion hd
  | succ n ih =>
    intro j rr v db g hv hrr h
    obtain ⟨a, b, hab⟩ := singleRoot_succ_shape n rr v
    rcases j with _ | j
    · exfalso
      rw [Rep_zero, hab] at h
      exact Word.noConfusion h
    · have hz : singleRoot (n + 1) rr v ≠ zhN (j + 1) := singleRoot_ne_zhN _ _ _ _ hv
      rcases hget : dbget db (singleRoot (n + 1) rr v) with _ | (⟨l, r⟩ | ⟨p, v2⟩)
      · exact absurd h (Rep_succ_miss hz hget)
      · rw [Rep_succ_pair hz hget] at h
        obtain ⟨hd, hl, hr⟩ := h
        rcases hb : rr.testBit n
        · rw [singleRoot, hb] at hd
          simp only [Bool.false_eq_true, if_false] at hd
          obtain ⟨h1, h2⟩ := Word.sha3.inj hd
          rw [← h1] at hl
          rw [← h2] at hr
          obtain ⟨hj, hgl⟩ := ih j (rr % 2 ^ n) v db _ hv (Paths.mod_lt_pow rr n) hl
          obtain ⟨hk2, hgr⟩ := Rep_zh_forces j n db _ hr
          subst hj
          refine ⟨rfl, fun x hx => ?_⟩
          have hrlt : rr < 2 ^ j := by
            have hdec := Paths.decomp_top_bit hrr
            rw [hb] at hdec
            simp only [Bool.false_eq_true, if_false] at hdec
            have := Paths.mod_lt_pow rr j
            omega
          by_cases hxb : x < 2 ^ j
          · have hx1 := hgl x hxb
            rw [Nat.mod_eq_of_lt hxb] at hx1
            rw [hx1, Nat.mod_eq_of_lt hrlt]
          · have hx2 : x - 2 ^ j < 2 ^ j := by
              rw [pow_succ] at hx
              omega
            have hx1 := hgr (x - 2 ^ j) hx2
            have hxeq : 2 ^ j + (x - 2 ^ j) % 2 ^ j = x := by
              rw [Nat.mod_eq_of_lt hx2]
              omega
            rw [hxeq] at hx1
            rw [hx1, if_neg (by omega)]
        · rw [singleRoot, hb] at hd
          simp only [if_pos rfl] at hd
          obtain ⟨h1, h2⟩ := Word.sha3.inj hd
          rw [← h1] at hl
          rw [← h2] at hr
          obtain ⟨hj, hgr⟩ := ih j (rr % 2 ^ n) v db _ hv (Paths.mod_lt_pow rr n) hr
          obtain ⟨hk2, hgl⟩ := Rep_zh_forces j n db _ hl
          subst hj
          refine ⟨rfl, fun x hx => ?_⟩
          have hrdec : rr = 2 ^ j + rr % 2 ^ j := by
            have hdec := Paths.decomp_top_bit hrr
            rw [hb] at hdec
            simpa using hdec
          by_cases hxb : x < 2 ^ j
          · have hx1 := hgl x hxb
            rw [Nat.mod_eq_of_lt hxb] at hx1
            rw [hx1, if_neg (by omega)]
          · have hx2 : x - 2 ^ j < 2 ^ j := by
              rw [pow_succ] at hx
              omega
            have hx1 := hgr (x - 2 ^ j) hx2
            have hxeq : 2 ^ j + (x - 2 ^ j) % 2 ^ j = x := by
              rw [Nat.mod_eq_of_lt hx2]
              omega
            rw [hxeq] at hx1
            rw [hx1]
            have hiff : (x - 2 ^ j = rr % 2 ^ j) ↔ (x = rr) := by omega
            by_cases hc : x = rr
            · rw [if_pos (hiff.mpr hc), if_pos hc]
            · rw [if_neg (fun hc2 => hc (hiff.mp hc2)), if_neg hc]
      · rw [Rep_succ_leaf hz hget] at h
        obtain ⟨rr2, hrr2, hp2, hd, hval⟩ := h
        by_cases hv2 : v2 = 0
        · exfalso
          rw [hv2, singleRoot_zero_val] at hd
          exact hz hd
        · obtain ⟨hn, hrr3, hvv⟩ := singleRoot_inj (n + 1) (j + 1) rr rr2 v v2
            hv hv2 hrr hrr2 hd
          refine ⟨by omega, fun x hx => ?_⟩
          rw [hval x hx, ← hrr3, ← hvv]

end Compact

namespace Compact

/-- Two representations of the same digest at the same level agree. -/
theorem RepDet : ∀ (n : Nat) (db : DB) (d : Word) (g g2 : Nat → Nat),
    Rep db n d g → Rep db n d g2 → ∀ x, x < 2 ^ n → g x = g2 x := by
  intro n
  induction n with
  | zero =>
    intro db d g g2 h h2 x hx
    rw [Rep_zero] at h h2
    have hx0 : x = 0 := by omega
    subst hx0
    rw [h] at h2
    exact Word.raw.inj h2
  | succ n ih =>
    intro db d g g2 h h2 x hx
    by_cases hz : d = zhN (n + 1)
    · rw [Rep_succ_zh hz] at h h2
      rw [h x hx, h2 x hx]
    · rcases hget : dbget db d with _ | (⟨l, r⟩ | ⟨p, v⟩)
      · exact absurd h (Rep_succ_miss hz hget)
      · rw [Rep_succ_pair hz hget] at h h2
        obtain ⟨_, hl, hr⟩ := h
        obtain ⟨_, hl2, hr2⟩ := h2
        by_cases hxb : x < 2 ^ n
        · have := ih db l _ _ hl hl2 x hxb
          rw [Nat.mod_eq_of_lt hxb] at this
          exact this
        · have hx2 : x - 2 ^ n < 2 ^ n := by
            rw [pow_succ] at hx
            omega
          have := ih db r _ _ hr hr2 (x - 2 ^ n) hx2
          have hxeq : 2 ^ n + (x - 2 ^ n) % 2 ^ n = x := by
            rw [Nat.mod_eq_of_lt hx2]
            omega
          rw [hxeq] at this
          exact this
      · rw [Rep_succ_leaf hz hget] at h h2
        obtain ⟨rr, hrr, _, hd, hval⟩ := h
        obtain ⟨rr2, hrr2, _, hd2, hval2⟩ := h2
        have hv : v ≠ 0 := by
          intro hv0
          rw [hv0, singleRoot_zero_val] at hd
          exact hz hd
        rw [hd] at hd2
        obtain ⟨_, hrr3, _⟩ := singleRoot_inj _ _ _ _ _ _ hv hv hrr hrr2 hd2
        rw [hval x hx, hval2 x hx, hrr3]

/-- The store binding written for a single-leaf subtree makes its root
digest represent the singleton map. -/
theorem Rep_leaf_intro {db : DB} {n rr v : Nat} {g : Nat → Nat}
    (hv : v ≠ 0) (hrr : rr < 2 ^ (n + 1))
    (hget : dbget db (singleRoot (n + 1) rr v) = some (.leaf (rr <<< (255 - n)) v))
    (hg : ∀ x, x < 2 ^ (n + 1) → g x = if x = rr then v else 0) :
    Rep db (n + 1) (singleRoot (n + 1) rr v) g := by
  rw [Rep_succ_leaf (singleRoot_ne_zhN _ _ _ _ hv) hget]
  exact ⟨rr, hrr, rfl, rfl, hg⟩

/-- What any representation of the put key must turn into for the new
binding: the content must itself support the representation, with its
recursive references resolved in the pre-put store. -/
def HeadCompat (db : DB) (K : Word) (c : Node) (m : Nat) (g : Nat → Nat) : Prop :=
  match c with
  | .pair l r => K = sha3 l r ∧ ∃ m2, m = m2 + 1 ∧
      Rep db m2 l (fun x => g (x % 2 ^ m2)) ∧
      Rep db m2 r (fun x => g (2 ^ m2 + x % 2 ^ m2))
  | .leaf p v => ∃ m2 rr, m = m2 + 1 ∧ rr < 2 ^ m ∧ p = rr <<< (255 - m2) ∧
      K = singleRoot m rr v ∧ ∀ x, x < 2 ^ m → g x = if x = rr then v else 0

/-- Putting a binding preserves every representation, provided every
representation of the key itself is head-compatible with the new
content. -/
theorem put_preserve (db : DB) (K : Word) (c : Node)
    (hd : ∀ m g, Rep db (m + 1) K g → K ≠ zhN (m + 1) → HeadCompat db K c (m + 1) g) :
    ∀ (m : Nat) (x : Word) (g : Nat → Nat),
      Rep db m x g → Rep (dbput db K c) m x g := by
  intro m
  induction m with
  | zero =>
    intro x g h
    rw [Rep_zero] at h ⊢
    exact h
  | succ m ih =>
    intro x g h
    by_cases hz : x = zhN (m + 1)
    · rw [Rep_succ_zh hz] at h ⊢
      exact h
    · by_cases hk : x = K
      · subst hk
        have hcomp := hd m g h hz
        rcases c with ⟨l, r⟩ | ⟨p, v⟩
        · obtain ⟨hK, m2, hm2, hl, hr⟩ := hcomp
          have hm2e : m2 = m := by omega
          subst hm2e
          rw [Rep_succ_pair hz (cdbget_put_self db x (.pair l r))]
          exact ⟨hK, ih l _ hl, ih r _ hr⟩
        · obtain ⟨m2, rr, hm2, hrr, hp, hK, hg⟩ := hcomp
          have hm2e : m2 = m := by omega
          subst hm2e
          rw [Rep_succ_leaf hz (cdbget_put_self db x (.leaf p v))]
          exact ⟨rr, hrr, hp, hK, hg⟩
      · rcases hget : dbget db x with _ | (⟨l, r⟩ | ⟨p, v⟩)
        · exact absurd h (Rep_succ_miss hz hget)
        · have hget2 : dbget (dbput db K c) x = some (.pair l r) := by
            rw [cdbget_put_ne _ _ _ _ hk]
            exact hget
          rw [Rep_succ_pair hz hget] at h
          rw [Rep_succ_pair hz hget2]
          obtain ⟨hd2, hl, hr⟩ := h
          exact ⟨hd2, ih l _ hl, ih r _ hr⟩
        · have hget2 : dbget (dbput db K c) x = some (.leaf p v) := by
            rw [cdbget_put_ne _ _ _ _ hk]
            exact hget
          rw [Rep_succ_leaf hz hget] at h
          rw [Rep_succ_leaf hz hget2]
          exact h

end Compact

namespace Compact

/-- Writing a 65-byte single-leaf binding keyed by the subtree root is
head-compatible with every representation of that digest. -/
theorem leaf_put_oblig (db : DB) (n rr v : Nat) (hrr : rr < 2 ^ (n + 1)) :
    ∀ (m : Nat) (g : Nat → Nat), Rep db m (singleRoot (n + 1) rr v) g →
      singleRoot (n + 1) rr v ≠ zhN m →
      HeadCompat db (singleRoot (n + 1) rr v) (.leaf (rr <<< (255 - n)) v) m g := by
  intro m g h hz
  by_cases hv : v = 0
  · exfalso
    rw [hv, singleRoot_zero_val] at h hz
    obtain ⟨hm, _⟩ := Rep_zh_forces m (n + 1) db g h
    exact hz (by rw [hm])
  · obtain ⟨hm, hg⟩ := Rep_singleRoot_forces (n + 1) m rr v db g hv hrr h
    subst hm
    exact ⟨n, rr, rfl, hrr, rfl, rfl, hg⟩

/-- Writing a 64-byte internal binding keyed by the hash of its halves
is head-compatible with every representation of that digest, provided
both halves are themselves represented in the store. -/
theorem pair_put_oblig (db : DB) (l r : Word) (ns : Nat) (gl gr : Nat → Nat)
    (hls : Rep db ns l gl) (hrs : Rep db ns r gr) :
    ∀ (m : Nat) (g : Nat → Nat), Rep db m (sha3 l r) g → sha3 l r ≠ zhN m →
      HeadCompat db (sha3 l r) (.pair l r) m g := by
  intro m g h hz
  rcases m with _ | m
  · rw [Rep_zero] at h
    exact absurd h (by simp)
  · rcases hget : dbget db (sha3 l r) with _ | (⟨l0, r0⟩ | ⟨p0, v0⟩)
    · exact absurd h (Rep_succ_miss hz hget)
    · rw [Rep_succ_pair hz hget] at h
      obtain ⟨hd, hl, hr⟩ := h
      obtain ⟨h1, h2⟩ := Word.sha3.inj hd
      rw [← h1] at hl
      rw [← h2] at hr
      exact ⟨rfl, m, rfl, hl, hr⟩
    · rw [Rep_succ_leaf hz hget] at h
      obtain ⟨rr, hrr, hp0, hd, hval⟩ := h
      have hv0 : v0 ≠ 0 := by
        intro h0
        rw [h0, singleRoot_zero_val] at hd
        exact hz hd
      rcases hb : rr.testBit m
      · -- leaf in the left half, right half empty
        rw [singleRoot, hb] at hd
        simp only [Bool.false_eq_true, if_false] at hd
        obtain ⟨h1, h2⟩ := Word.sha3.inj hd
        have hrlt : rr < 2 ^ m := by
          have hdec := Paths.decomp_top_bit hrr
          rw [hb] at hdec
          simp only [Bool.false_eq_true, if_false] at hdec
          have := Paths.mod_lt_pow rr m
          omega
        have hrm : rr % 2 ^ m = rr := Nat.mod_eq_of_lt hrlt
        have hlsr : Rep db ns (singleRoot m rr v0) gl := by
          rw [hrm] at h1
          rw [h1] at hls
          exact hls
        obtain ⟨hns, hgl⟩ :=
          Rep_singleRoot_forces m ns rr v0 db gl hv0 hrlt hlsr
        subst hns
        refine ⟨rfl, ns, rfl, ?_, ?_⟩
        · refine Rep_ext ns db l _ _ ?_ (by rw [h1, hrm]; exact hlsr)
          intro x hx
          rw [Nat.mod_eq_of_lt hx, hgl x hx, hval x (by rw [pow_succ]; omega)]
        · rw [h2]
          refine Rep_zhN db ns _ ?_
          intro x hx
          have hx2 := Paths.mod_lt_pow x ns
          rw [hval (2 ^ ns + x % 2 ^ ns) (by rw [pow_succ]; omega),
            if_neg (by omega)]
      · -- leaf in the right half, left half empty
        rw [singleRoot, hb] at hd
        simp only [if_pos rfl] at hd
        obtain ⟨h1, h2⟩ := Word.sha3.inj hd
        have hrdec : rr = 2 ^ m + rr % 2 ^ m := by
          have hdec := Paths.decomp_top_bit hrr
          rw [hb] at hdec
          simpa using hdec
        have hrsr : Rep db ns (singleRoot m (rr % 2 ^ m) v0) gr := by
          rw [h2] at hrs
          exact hrs
        obtain ⟨hns, hgr⟩ :=
          Rep_singleRoot_forces m ns (rr % 2 ^ m) v0 db gr hv0
            (Paths.mod_lt_pow rr m) hrsr
        subst hns
        refine ⟨rfl, ns, rfl, ?_, ?_⟩
        · rw [h1]
          refine Rep_zhN db ns _ ?_
          intro x hx
          have hx2 := Paths.mod_lt_pow x ns
          rw [hval (x % 2 ^ ns) (by rw [pow_succ]; omega), if_neg (by omega)]
        · refine Rep_ext ns db r _ _ ?_ (by rw [h2]; exact hrsr)
          intro x hx
          rw [Nat.mod_eq_of_lt hx, hgr x hx,
            hval (2 ^ ns + x) (by rw [pow_succ]; omega)]
          by_cases hc : x = rr % 2 ^ ns
          · rw [if_pos hc, if_pos (by omega)]
          · rw [if_neg hc, if_neg (by omega)]

end Compact

namespace Compact

/-- Compact `get` returns the represented value. -/
theorem cget_ok : ∀ (n : Nat), n ≤ 256 → ∀ (db : DB) (d : Word) (g : Nat → Nat) (k : Nat),
    Rep db n d g → get_loop db n d (k <<< (256 - n)) = some (raw (g (k % 2 ^ n))) := by
  intro n
  induction n with
  | zero =>
    intro _ db d g k h
    rw [Rep_zero] at h
    simp [get_loop, h, Nat.mod_one]
  | succ n ih =>
    intro hn db d g k h
    have h255 : 256 - (n + 1) = 255 - n := by omega
    rw [h255]
    by_cases hz : d = zhN (n + 1)
    · rw [Rep_succ_zh hz] at h
      simp only [get_loop, if_pos hz]
      rw [h (k % 2 ^ (n + 1)) (Paths.mod_lt_pow k (n + 1))]
    · rcases hget : dbget db d with _ | (⟨l, r⟩ | ⟨p, v⟩)
      · exact absurd h (Rep_succ_miss hz hget)
      · rw [Rep_succ_pair hz hget] at h
        obtain ⟨_, hl, hr⟩ := h
        simp only [get_loop, if_neg hz, hget]
        rw [Paths.shl_one, (by omega : 255 - n + 1 = 256 - n)]
        rcases hb : k.testBit n
        · rw [if_neg (by rw [Paths.path_top_bit k n (by omega)]; simp [hb])]
          rw [ih (by omega) db l _ k hl]
          rw [Paths.mod_pow_succ_testBit, hb]
          simp [Nat.mod_mod_of_dvd]
        · rw [if_pos (by rw [Paths.path_top_bit k n (by omega)]; simp [hb])]
          rw [ih (by omega) db r _ k hr]
          rw [Paths.mod_pow_succ_testBit, hb]
          simp [Nat.mod_mod_of_dvd]
      · rw [Rep_succ_leaf hz hget] at h
        obtain ⟨rr, hrr, hp, hd, hval⟩ := h
        simp only [get_loop, if_neg hz, hget]
        rw [Paths.shl_mod k (255 - n) (by omega),
          (by omega : 256 - (255 - n) = n + 1), hp]
        simp only [key_to_path]
        by_cases hc : k % 2 ^ (n + 1) = rr
        · rw [if_pos (by rw [hc]), hval _ (Paths.mod_lt_pow k (n + 1)), if_pos hc]
        · rw [if_neg (fun he => hc (Paths.shl_inj _ he)),
            hval _ (Paths.mod_lt_pow k (n + 1)), if_neg hc]

end Compact

namespace Compact

/-- A `raw` digest never represents at a positive level, so writing any
binding under it is vacuously head-compatible there. -/
theorem raw_put_oblig (db : DB) (v : Nat) (c : Node) :
    ∀ (m : Nat) (g : Nat → Nat), Rep db (m + 1) (raw v) g → raw v ≠ zhN (m + 1) →
      HeadCompat db (raw v) c (m + 1) g := by
  intro m g h hz
  exfalso
  rcases hget : dbget db (raw v) with _ | (⟨l, r⟩ | ⟨p, v2⟩)
  · exact Rep_succ_miss hz hget h
  · rw [Rep_succ_pair hz hget] at h
    exact Word.noConfusion h.1
  · rw [Rep_succ_leaf hz hget] at h
    obtain ⟨rr, _, _, hd, _⟩ := h
    obtain ⟨a, b, hab⟩ := singleRoot_succ_shape m rr v2
    rw [hab] at hd
    exact Word.noConfusion hd

/-- A stored internal binding whose halves represent the two halves of
the map makes its hash represent the whole map, the degenerate
all-zero case included. -/
theorem Rep_pair_intro (db : DB) (n : Nat) (l r : Word) (g : Nat → Nat)
    (hget : dbget db (sha3 l r) = some (.pair l r))
    (hl : Rep db n l (fun x => g (x % 2 ^ n)))
    (hr : Rep db n r (fun x => g (2 ^ n + x % 2 ^ n))) :
    Rep db (n + 1) (sha3 l r) g := by
  by_cases hz : sha3 l r = zhN (n + 1)
  · rw [Rep_succ_zh hz]
    have hz2 : sha3 l r = sha3 (zhN n) (zhN n) := hz
    obtain ⟨h1, h2⟩ := Word.sha3.inj hz2
    rw [h1] at hl
    rw [h2] at hr
    obtain ⟨_, hgl⟩ := Rep_zh_forces n n db _ hl
    obtain ⟨_, hgr⟩ := Rep_zh_forces n n db _ hr
    intro x hx
    by_cases hxb : x < 2 ^ n
    · have hx1 := hgl x hxb
      rw [Nat.mod_eq_of_lt hxb] at hx1
      exact hx1
    · have hx2 : x - 2 ^ n < 2 ^ n := by
        rw [pow_succ] at hx
        omega
      have hx1 := hgr (x - 2 ^ n) hx2
      rw [Nat.mod_eq_of_lt hx2, (by omega : 2 ^ n + (x - 2 ^ n) = x)] at hx1
      exact hx1
  · rw [Rep_succ_pair hz hget]
    exact ⟨rfl, hl, hr⟩

/-- The source `path_to_key` on a path in invariant form keeps only the
low bits of the key that the remaining levels can still consume. -/
theorem path_to_key_shl (k n : Nat) (hn : n ≤ 256) :
    path_to_key (k <<< (256 - n)) = (k % 2 ^ n) <<< (256 - n) := by
  show (k <<< (256 - n)) &&& (2 ^ 256 - 1) = (k % 2 ^ n) <<< (256 - n)
  rw [Nat.and_pow_two_sub_one_eq_mod, Paths.shl_mod k (256 - n) (by omega),
    (by omega : 256 - (256 - n) = n)]

/-- Storing one 65-byte single-leaf binding the way the engine does:
the resulting digest represents the singleton map, and every previous
representation survives the write. -/
theorem put_leaf_node (db : DB) (n k v : Nat) (hn : n ≤ 256) :
    Rep (dbput db (singleRoot n (k % 2 ^ n) v)
        (.leaf (path_to_key (k <<< (256 - n))) v))
      n (singleRoot n (k % 2 ^ n) v)
      (fun x => if x = k % 2 ^ n then v else 0) ∧
    (∀ (m : Nat) (x : Word) (g0 : Nat → Nat), Rep db m x g0 →
      Rep (dbput db (singleRoot n (k % 2 ^ n) v)
        (.leaf (path_to_key (k <<< (256 - n))) v)) m x g0) := by
  have hptk : path_to_key (k <<< (256 - n)) = (k % 2 ^ n) <<< (256 - n) :=
    path_to_key_shl k n hn
  have hpres : ∀ (m : Nat) (x : Word) (g0 : Nat → Nat), Rep db m x g0 →
      Rep (dbput db (singleRoot n (k % 2 ^ n) v)
        (.leaf (path_to_key (k <<< (256 - n))) v)) m x g0 := by
    refine put_preserve db _ _ ?_
    intro m g0 h hz
    rcases n with _ | n2
    · exact raw_put_oblig db v _ m g0 h hz
    · have h2 : path_to_key (k <<< (256 - (n2 + 1)))
          = (k % 2 ^ (n2 + 1)) <<< (255 - n2) := by
        rw [hptk]
        congr 1
        omega
      rw [h2]
      exact leaf_put_oblig db n2 (k % 2 ^ (n2 + 1)) v (Paths.mod_lt_pow _ _)
        (m + 1) g0 h hz
  refine ⟨?_, hpres⟩
  rcases n with _ | n2
  · rw [Rep_zero]
    simp [singleRoot, Nat.mod_one]
  · by_cases hv : v = 0
    · subst hv
      rw [singleRoot_zero_val]
      refine Rep_zhN _ _ _ ?_
      intro x _
      split <;> rfl
    · refine Rep_leaf_intro hv (Paths.mod_lt_pow _ _) ?_ (fun x _ => rfl)
      have h2 : path_to_key (k <<< (256 - (n2 + 1)))
          = (k % 2 ^ (n2 + 1)) <<< (255 - n2) := by
        rw [hptk]
        congr 1
        omega
      rw [← h2]
      exact cdbget_put_self db _ _

/-- Storing one 64-byte internal binding the way the engine does: the
hash of the halves represents the combined map, and every previous
representation survives the write. -/
theorem put_pair_node (db : DB) (n : Nat) (l r : Word) (g : Nat → Nat)
    (hl : Rep db n l (fun x => g (x % 2 ^ n)))
    (hr : Rep db n r (fun x => g (2 ^ n + x % 2 ^ n))) :
    Rep (dbput db (sha3 l r) (.pair l r)) (n + 1) (sha3 l r) g ∧
    (∀ (m : Nat) (x : Word) (g0 : Nat → Nat), Rep db m x g0 →
      Rep (dbput db (sha3 l r) (.pair l r)) m x g0) := by
  have hpres : ∀ (m : Nat) (x : Word) (g0 : Nat → Nat), Rep db m x g0 →
      Rep (dbput db (sha3 l r) (.pair l r)) m x g0 :=
    put_preserve db _ _
      (fun m g0 h hz => pair_put_oblig db l r n _ _ hl hr (m + 1) g0 h hz)
  exact ⟨Rep_pair_intro _ n l r g (cdbget_put_self db _ _)
    (hpres n l _ hl) (hpres n r _ hr), hpres⟩

end Compact

namespace Compact

/-- When the two keys agree on all remaining bits, the double-key walk
runs out of depth and raises the two-in-one-slot error. -/
theorem mdkh_equal : ∀ (n : Nat), n ≤ 256 → ∀ (db : DB) (a b v1 v2 : Nat),
    a % 2 ^ n = b % 2 ^ n →
    make_double_key_hash_fuel db n (a <<< (256 - n)) (b <<< (256 - n)) v1 v2
      = .error .twoInOneSlot := by
  intro n
  induction n with
  | zero =>
    intro _ db a b v1 v2 _
    rfl
  | succ n ih =>
    intro hn db a b v1 v2 hmod
    have h255 : 256 - (n + 1) = 255 - n := by omega
    rw [h255]
    have hbit : a.testBit n = b.testBit n := Paths.testBit_eq_of_mod_eq hmod (by omega)
    have hmod2 : a % 2 ^ n = b % 2 ^ n := by
      rw [← Paths.mod_mod_pow a n, ← Paths.mod_mod_pow b n, hmod]
    have hrec := ih (by omega) db a b v1 v2 hmod2
    simp only [make_double_key_hash_fuel]
    rcases hb : a.testBit n
    · rw [if_neg (by rw [Paths.path_top_bit a n (by omega)]; simp [hb]),
        if_neg (by rw [Paths.path_top_bit b n (by omega), ← hbit]; simp [hb]),
        Paths.shl_one, Paths.shl_one, (by omega : 255 - n + 1 = 256 - n), hrec]
    · rw [if_pos (by rw [Paths.path_top_bit a n (by omega)]; exact hb),
        if_pos (by rw [Paths.path_top_bit b n (by omega), ← hbit]; exact hb),
        Paths.shl_one, Paths.shl_one, (by omega : 255 - n + 1 = 256 - n), hrec]

/-- When the two keys differ on the remaining bits, the double-key walk
succeeds and builds a subtree holding exactly the two leaves, while
preserving every previous representation. -/
theorem mdkh_correct : ∀ (n : Nat), n ≤ 256 → ∀ (db : DB) (k1 k2 v1 v2 : Nat),
    k1 % 2 ^ n ≠ k2 % 2 ^ n →
    ∃ db2 d,
      make_double_key_hash_fuel db n (k1 <<< (256 - n)) (k2 <<< (256 - n)) v1 v2
        = .ok (db2, d) ∧
      Rep db2 n d
        (fun x => if x = k1 % 2 ^ n then v1 else if x = k2 % 2 ^ n then v2 else 0) ∧
      (∀ (m : Nat) (x : Word) (g0 : Nat → Nat), Rep db m x g0 → Rep db2 m x g0) := by
  intro n
  induction n with
  | zero =>
    intro _ db k1 k2 v1 v2 hne
    exact absurd (by simp [Nat.mod_one]) hne
  | succ n ih =>
    intro hn db k1 k2 v1 v2 hne
    have h255 : 256 - (n + 1) = 255 - n := by omega
    rw [h255]
    have hx1 := Paths.mod_lt_pow k1 n
    have hx2 := Paths.mod_lt_pow k2 n
    rcases hb1 : k1.testBit n <;> rcases hb2 : k2.testBit n
    · -- both keys go left: recurse, empty right half
      have hm1 : k1 % 2 ^ (n + 1) = k1 % 2 ^ n := Paths.mod_succ_of_testBit_false hb1
      have hm2 : k2 % 2 ^ (n + 1) = k2 % 2 ^ n := Paths.mod_succ_of_testBit_false hb2
      have hne2 : k1 % 2 ^ n ≠ k2 % 2 ^ n := by
        intro h
        exact hne (by rw [hm1, hm2, h])
      obtain ⟨db2, d, heq, hrep, hpres⟩ := ih (by omega) db k1 k2 v1 v2 hne2
      have hl : Rep db2 n d (fun x =>
          if x % 2 ^ n = k1 % 2 ^ (n + 1) then v1
          else if x % 2 ^ n = k2 % 2 ^ (n + 1) then v2 else 0) := by
        refine Rep_ext n db2 d _ _ ?_ hrep
        intro x hx
        rw [Nat.mod_eq_of_lt hx, hm1, hm2]
      have hr : Rep db2 n (zhN n) (fun x =>
          if 2 ^ n + x % 2 ^ n = k1 % 2 ^ (n + 1) then v1
          else if 2 ^ n + x % 2 ^ n = k2 % 2 ^ (n + 1) then v2 else 0) := by
        refine Rep_zhN _ _ _ ?_
        intro x hx
        have := Paths.mod_lt_pow x n
        rw [hm1, hm2, if_neg (by omega), if_neg (by omega)]
      obtain ⟨hroot, hpresP⟩ := put_pair_node db2 n d (zhN n)
        (fun x => if x = k1 % 2 ^ (n + 1) then v1
          else if x = k2 % 2 ^ (n + 1) then v2 else 0) hl hr
      refine ⟨dbput db2 (sha3 d (zhN n)) (.pair d (zhN n)), sha3 d (zhN n),
        ?_, hroot, fun m x g0 h => hpresP m x g0 (hpres m x g0 h)⟩
      simp only [make_double_key_hash_fuel]
      rw [if_neg (by rw [Paths.path_top_bit k1 n (by omega)]; simp [hb1]),
        if_neg (by rw [Paths.path_top_bit k2 n (by omega)]; simp [hb2]),
        Paths.shl_one, Paths.shl_one, (by omega : 255 - n + 1 = 256 - n), heq]
    · -- keys diverge here: key 1 left, key 2 right
      have hm1 : k1 % 2 ^ (n + 1) = k1 % 2 ^ n := Paths.mod_succ_of_testBit_false hb1
      have hm2 : k2 % 2 ^ (n + 1) = 2 ^ n + k2 % 2 ^ n :=
        Paths.mod_succ_of_testBit_true hb2
      obtain ⟨hL, hpres1⟩ := put_leaf_node db n k1 v1 (by omega)
      obtain ⟨hR, hpres2⟩ := put_leaf_node
        (dbput db (singleRoot n (k1 % 2 ^ n) v1)
          (.leaf (path_to_key (k1 <<< (256 - n))) v1)) n k2 v2 (by omega)
      have hl : Rep (dbput (dbput db (singleRoot n (k1 % 2 ^ n) v1)
            (.leaf (path_to_key (k1 <<< (256 - n))) v1))
            (singleRoot n (k2 % 2 ^ n) v2)
            (.leaf (path_to_key (k2 <<< (256 - n))) v2)) n
          (singleRoot n (k1 % 2 ^ n) v1) (fun x =>
          if x % 2 ^ n = k1 % 2 ^ (n + 1) then v1
          else if x % 2 ^ n = k2 % 2 ^ (n + 1) then v2 else 0) := by
        refine Rep_ext n _ _ _ _ ?_ (hpres2 n _ _ hL)
        intro x hx
        rw [Nat.mod_eq_of_lt hx, hm1, hm2]
        by_cases hc : x = k1 % 2 ^ n
        · rw [if_pos hc, if_pos hc]
        · rw [if_neg hc, if_neg hc, if_neg (by omega)]
      have hr : Rep (dbput (dbput db (singleRoot n (k1 % 2 ^ n) v1)
            (.leaf (path_to_key (k1 <<< (256 - n))) v1))
            (singleRoot n (k2 % 2 ^ n) v2)
            (.leaf (path_to_key (k2 <<< (256 - n))) v2)) n
          (singleRoot n (k2 % 2 ^ n) v2) (fun x =>
          if 2 ^ n + x % 2 ^ n = k1 % 2 ^ (n + 1) then v1
          else if 2 ^ n + x % 2 ^ n = k2 % 2 ^ (n + 1) then v2 else 0) := by
        refine Rep_ext n _ _ _ _ ?_ hR
        intro x hx
        rw [Nat.mod_eq_of_lt hx, hm1, hm2]
        by_cases hc : x = k2 % 2 ^ n
        · rw [if_pos hc, if_neg (by omega), if_pos (by omega)]
        · rw [if_neg hc, if_neg (by omega), if_neg (by omega)]
      obtain ⟨hroot, hpresP⟩ := put_pair_node _ n
        (singleRoot n (k1 % 2 ^ n) v1) (singleRoot n (k2 % 2 ^ n) v2)
        (fun x => if x = k1 % 2 ^ (n + 1) then v1
          else if x = k2 % 2 ^ (n + 1) then v2 else 0) hl hr
      refine ⟨_, _, ?_, hroot,
        fun m x g0 h => hpresP m x g0 (hpres2 m x g0 (hpres1 m x g0 h))⟩
      simp only [make_double_key_hash_fuel]
      rw [if_neg (by rw [Paths.path_top_bit k1 n (by omega)]; simp [hb1]),
        if_pos (by rw [Paths.path_top_bit k2 n (by omega)]; exact hb2),
        Paths.shl_one, Paths.shl_one, (by omega : 255 - n + 1 = 256 - n),
        mskh_eq_singleRoot n (by omega) k1 v1, mskh_eq_singleRoot n (by omega) k2 v2]
    · -- keys diverge here: key 2 left, key 1 right
      have hm1 : k1 % 2 ^ (n + 1) = 2 ^ n + k1 % 2 ^ n :=
        Paths.mod_succ_of_testBit_true hb1
      have hm2 : k2 % 2 ^ (n + 1) = k2 % 2 ^ n := Paths.mod_succ_of_testBit_false hb2
      obtain ⟨hL, hpres1⟩ := put_leaf_node db n k2 v2 (by omega)
      obtain ⟨hR, hpres2⟩ := put_leaf_node
        (dbput db (singleRoot n (k2 % 2 ^ n) v2)
          (.leaf (path_to_key (k2 <<< (256 - n))) v2)) n k1 v1 (by omega)
      have hl : Rep (dbput (dbput db (singleRoot n (k2 % 2 ^ n) v2)
            (.leaf (path_to_key (k2 <<< (256 - n))) v2))
            (singleRoot n (k1 % 2 ^ n) v1)
            (.leaf (path_to_key (k1 <<< (256 - n))) v1)) n
          (singleRoot n (k2 % 2 ^ n) v2) (fun x =>
          if x % 2 ^ n = k1 % 2 ^ (n + 1) then v1
          else if x % 2 ^ n = k2 % 2 ^ (n + 1) then v2 else 0) := by
        refine Rep_ext n _ _ _ _ ?_ (hpres2 n _ _ hL)
        intro x hx
        rw [Nat.mod_eq_of_lt hx, hm1, hm2]
        by_cases hc : x = k2 % 2 ^ n
        · rw [if_pos hc, if_neg (by omega)]
        · rw [if_neg hc, if_neg (by omega)]
      have hr : Rep (dbput (dbput db (singleRoot n (k2 % 2 ^ n) v2)
            (.leaf (path_to_key (k2 <<< (256 - n))) v2))
            (singleRoot n (k1 % 2 ^ n) v1)
            (.leaf (path_to_key (k1 <<< (256 - n))) v1)) n
          (singleRoot n (k1 % 2 ^ n) v1) (fun x =>
          if 2 ^ n + x % 2 ^ n = k1 % 2 ^ (n + 1) then v1
          else if 2 ^ n + x % 2 ^ n = k2 % 2 ^ (n + 1) then v2 else 0) := by
        refine Rep_ext n _ _ _ _ ?_ hR
        intro x hx
        rw [Nat.mod_eq_of_lt hx, hm1, hm2]
        by_cases hc : x = k1 % 2 ^ n
        · rw [if_pos hc, if_pos (by omega)]
        · rw [if_neg hc, if_neg (by omega), if_neg (by omega)]
      obtain ⟨hroot, hpresP⟩ := put_pair_node _ n
        (singleRoot n (k2 % 2 ^ n) v2) (singleRoot n (k1 % 2 ^ n) v1)
        (fun x => if x = k1 % 2 ^ (n + 1) then v1
          else if x = k2 % 2 ^ (n + 1) then v2 else 0) hl hr
      refine ⟨_, _, ?_, hroot,
        fun m x g0 h => hpresP m x g0 (hpres2 m x g0 (hpres1 m x g0 h))⟩
      simp only [make_double_key_hash_fuel]
      rw [if_pos (by rw [Paths.path_top_bit k1 n (by omega)]; exact hb1),
        if_neg (by rw [Paths.path_top_bit k2 n (by omega)]; simp [hb2]),
        Paths.shl_one, Paths.shl_one, (by omega : 255 - n + 1 = 256 - n),
        mskh_eq_singleRoot n (by omega) k1 v1, mskh_eq_singleRoot n (by omega) k2 v2]
    · -- both keys go right: recurse, empty left half
      have hm1 : k1 % 2 ^ (n + 1) = 2 ^ n + k1 % 2 ^ n :=
        Paths.mod_succ_of_testBit_true hb1
      have hm2 : k2 % 2 ^ (n + 1) = 2 ^ n + k2 % 2 ^ n :=
        Paths.mod_succ_of_testBit_true hb2
      have hne2 : k1 % 2 ^ n ≠ k2 % 2 ^ n := by
        intro h
        exact hne (by rw [hm1, hm2, h])
      obtain ⟨db2, d, heq, hrep, hpres⟩ := ih (by omega) db k1 k2 v1 v2 hne2
      have hl : Rep db2 n (zhN n) (fun x =>
          if x % 2 ^ n = k1 % 2 ^ (n + 1) then v1
          else if x % 2 ^ n = k2 % 2 ^ (n + 1) then v2 else 0) := by
        refine Rep_zhN _ _ _ ?_
        intro x hx
        have := Paths.mod_lt_pow x n
        rw [hm1, hm2, if_neg (by omega), if_neg (by omega)]
      have hr : Rep db2 n d (fun x =>
          if 2 ^ n + x % 2 ^ n = k1 % 2 ^ (n + 1) then v1
          else if 2 ^ n + x % 2 ^ n = k2 % 2 ^ (n + 1) then v2 else 0) := by
        refine Rep_ext n db2 d _ _ ?_ hrep
        intro x hx
        rw [Nat.mod_eq_of_lt hx, hm1, hm2]
        simp only [Nat.add_left_cancel_iff]
      obtain ⟨hroot, hpresP⟩ := put_pair_node db2 n (zhN n) d
        (fun x => if x = k1 % 2 ^ (n + 1) then v1
          else if x = k2 % 2 ^ (n + 1) then v2 else 0) hl hr
      refine ⟨dbput db2 (sha3 (zhN n) d) (.pair (zhN n) d), sha3 (zhN n) d,
        ?_, hroot, fun m x g0 h => hpresP m x g0 (hpres m x g0 h)⟩
      simp only [make_double_key_hash_fuel]
      rw [if_pos (by rw [Paths.path_top_bit k1 n (by omega)]; exact hb1),
        if_pos (by rw [Paths.path_top_bit k2 n (by omega)]; exact hb2),
        Paths.shl_one, Paths.shl_one, (by omega : 255 - n + 1 = 256 - n), heq]

end Compact

namespace Compact

/-- Correctness of the compact `_update`: when it succeeds it returns a
digest representing the updated map and a store that still supports
every previous representation; its failures are not constrained. -/
theorem cupd_correct : ∀ (n : Nat), n ≤ 256 →
    ∀ (db : DB) (root : Word) (g : Nat → Nat) (k v : Nat),
    Rep db n root g →
    match update_fuel n db root (k <<< (256 - n)) v with
    | .error _ => True
    | .ok (db2, r2) =>
        Rep db2 n r2 (fun x => if x = k % 2 ^ n then v else g x) ∧
        (∀ (m : Nat) (x : Word) (g0 : Nat → Nat), Rep db m x g0 → Rep db2 m x g0) := by
  intro n
  induction n with
  | zero =>
    intro _ db root g k v h
    refine ⟨?_, fun m x g0 hh => hh⟩
    rw [Rep_zero]
    simp [Nat.mod_one]
  | succ n ih =>
    intro hn db root g k v h
    have h255 : 256 - (n + 1) = 255 - n := by omega
    rw [h255]
    by_cases hz : root = zhN (n + 1)
    · rw [Rep_succ_zh hz] at h
      simp only [update_fuel, if_pos hz]
      rw [(by omega : 255 - n = 256 - (n + 1)), mskh_eq_singleRoot (n + 1) hn k v]
      obtain ⟨hrep, hpres⟩ := put_leaf_node db (n + 1) k v hn
      refine ⟨?_, hpres⟩
      refine Rep_ext (n + 1) _ _ _ _ ?_ hrep
      intro x hx
      by_cases hc : x = k % 2 ^ (n + 1)
      · rw [if_pos hc, if_pos hc]
      · rw [if_neg hc, if_neg hc, h x hx]
    · rcases hget : dbget db root with _ | (⟨l, r⟩ | ⟨p, ov⟩)
      · simp only [update_fuel, if_neg hz, hget]
      · rw [Rep_succ_pair hz hget] at h
        obtain ⟨hd, hl, hr⟩ := h
        simp only [update_fuel, if_neg hz, hget]
        rw [Paths.shl_one, (by omega : 255 - n + 1 = 256 - n)]
        have hklt := Paths.mod_lt_pow k n
        rcases hb : k.testBit n
        · rw [if_neg (by rw [Paths.path_top_bit k n (by omega)]; simp [hb])]
          have hih := ih (by omega) db l _ k v hl
          rcases hu : update_fuel n db l (k <<< (256 - n)) v with e | ⟨db2, d⟩
          · trivial
          · rw [hu] at hih
            obtain ⟨hrep2, hpres2⟩ := hih
            have hm1 : k % 2 ^ (n + 1) = k % 2 ^ n := Paths.mod_succ_of_testBit_false hb
            have hL2 : Rep db2 n d (fun x =>
                if x % 2 ^ n = k % 2 ^ (n + 1) then v else g (x % 2 ^ n)) := by
              refine Rep_ext n db2 d _ _ ?_ hrep2
              intro x hx
              rw [Nat.mod_eq_of_lt hx, hm1]
            have hR2 : Rep db2 n r (fun x =>
                if 2 ^ n + x % 2 ^ n = k % 2 ^ (n + 1) then v
                else g (2 ^ n + x % 2 ^ n)) := by
              refine Rep_ext n db2 r _ _ ?_ (hpres2 n r _ hr)
              intro x hx
              rw [Nat.mod_eq_of_lt hx, hm1, if_neg (by omega)]
            obtain ⟨hroot, hpres3⟩ := put_pair_node db2 n d r
              (fun x => if x = k % 2 ^ (n + 1) then v else g x) hL2 hR2
            exact ⟨hroot, fun m x g0 hh => hpres3 m x g0 (hpres2 m x g0 hh)⟩
        · rw [if_pos (by rw [Paths.path_top_bit k n (by omega)]; exact hb)]
          have hih := ih (by omega) db r _ k v hr
          rcases hu : update_fuel n db r (k <<< (256 - n)) v with e | ⟨db2, d⟩
          · trivial
          · rw [hu] at hih
            obtain ⟨hrep2, hpres2⟩ := hih
            have hm1 : k % 2 ^ (n + 1) = 2 ^ n + k % 2 ^ n :=
              Paths.mod_succ_of_testBit_true hb
            have hL2 : Rep db2 n l (fun x =>
                if x % 2 ^ n = k % 2 ^ (n + 1) then v else g (x % 2 ^ n)) := by
              refine Rep_ext n db2 l _ _ ?_ (hpres2 n l _ hl)
              intro x hx
              rw [Nat.mod_eq_of_lt hx, hm1, if_neg (by omega)]
            have hR2 : Rep db2 n d (fun x =>
                if 2 ^ n + x % 2 ^ n = k % 2 ^ (n + 1) then v
                else g (2 ^ n + x % 2 ^ n)) := by
              refine Rep_ext n db2 d _ _ ?_ hrep2
              intro x hx
              rw [Nat.mod_eq_of_lt hx, hm1]
              simp only [Nat.add_left_cancel_iff]
            obtain ⟨hroot, hpres3⟩ := put_pair_node db2 n l d
              (fun x => if x = k % 2 ^ (n + 1) then v else g x) hL2 hR2
            exact ⟨hroot, fun m x g0 hh => hpres3 m x g0 (hpres2 m x g0 hh)⟩
      · rw [Rep_succ_leaf hz hget] at h
        obtain ⟨rr, hrr, hp, hd, hval⟩ := h
        simp only [update_fuel, if_neg hz, hget]
        have hp2 : key_to_path p = rr <<< (256 - (n + 1)) := by
          rw [key_to_path, hp]
          congr 1
          omega
        rw [hp2, (by omega : 255 - n = 256 - (n + 1))]
        by_cases hkr : k % 2 ^ (n + 1) = rr
        · have herr := mdkh_equal (n + 1) hn db k rr v ov
            (by rw [hkr, Nat.mod_eq_of_lt hrr])
          rw [herr]
          trivial
        · have hne : k % 2 ^ (n + 1) ≠ rr % 2 ^ (n + 1) := by
            rw [Nat.mod_eq_of_lt hrr]
            exact hkr
          obtain ⟨db2, d, heq, hrep2, hpres2⟩ :=
            mdkh_correct (n + 1) hn db k rr v ov hne
          rw [heq]
          refine ⟨?_, hpres2⟩
          refine Rep_ext (n + 1) _ _ _ _ ?_ hrep2
          intro x hx
          rw [Nat.mod_eq_of_lt hrr, hval x hx]

end Compact

namespace Compact

/-- Roots reachable in the compact engine: the empty-tree root, and any
root returned by a successful 32-byte update of a reachable root. -/
inductive CReach : DB → Word → Prop where
  | base : ∀ db, CReach db (new_tree db)
  | step : ∀ {db r k v db2 r2}, CReach db r → k < 2 ^ 256 → v < 2 ^ 256 →
      update db r k v = .ok (db2, r2) → CReach db2 r2

/-- Every reachable compact root represents some leaf map. -/
theorem creach_rep : ∀ {db r}, CReach db r → ∃ g, Rep db 256 r g := by
  intro db r h
  induction h with
  | base db0 => exact ⟨fun _ => 0, Rep_zhN db0 256 _ (fun _ _ => rfl)⟩
  | step hre hk hv hupd ih =>
    rename_i db0 r0 k v db2 r2
    obtain ⟨g, hg⟩ := ih
    have hcu := cupd_correct 256 le_rfl db0 r0 g k v hg
    rw [(by rw [Nat.sub_self, Nat.shiftLeft_zero] :
      update_fuel 256 db0 r0 (k <<< (256 - 256)) v = update_fuel 256 db0 r0 k v)] at hcu
    simp only [update, key_to_path] at hupd
    rw [hupd] at hcu
    exact ⟨_, hcu.1⟩

end Compact

namespace Compact

/-- Unfolding of `_update` on an empty subtree root. -/
theorem update_fuel_zh (n : Nat) (db : DB) (path v : Nat) :
    update_fuel (n + 1) db (zhN (n + 1)) path v
      = .ok (dbput db (make_single_key_hash_fuel (n + 1) path v)
          (.leaf (path_to_key path) v), make_single_key_hash_fuel (n + 1) path v) := by
  simp only [update_fuel, eq_self_iff_true, if_true]

/-- Unfolding of `_update` on a root stored as a 65-byte single-leaf
node. -/
theorem update_fuel_leaf (n : Nat) (db : DB) (root : Word) (path v p ov : Nat)
    (hz : root ≠ zhN (n + 1)) (hget : dbget db root = some (.leaf p ov)) :
    update_fuel (n + 1) db root path v
      = make_double_key_hash_fuel db (n + 1) path (key_to_path p) v ov := by
  simp only [update_fuel, if_neg hz, hget]

/-- Updating the empty root stores one single-leaf binding keyed by the
single-leaf subtree root and returns that root. -/
theorem update_empty_root (db : DB) (k v : Nat) :
    update db (zerohashes 0) k v
      = .ok (dbput db (singleRoot 256 (k % 2 ^ 256) v) (.leaf (path_to_key k) v),
        singleRoot 256 (k % 2 ^ 256) v) := by
  have hm := mskh_eq_singleRoot 256 le_rfl k v
  rw [Nat.sub_self, Nat.shiftLeft_zero] at hm
  have h := update_fuel_zh 255 db k v
  have h256 : (255 + 1 : Nat) = 256 := rfl
  rw [h256, hm] at h
  exact h

end Compact

/-- Claim C10: for every key, the compact `_update` applied to the
empty root with the all-zero value succeeds and returns the empty-tree
root again, because the single-leaf root hash of a zero value
collapses to the zero hash of the level. -/
theorem claim_empty_zero_update (db : Compact.DB) (k : Nat) :
    ∃ db2, Compact.update db (zerohashes 0) k 0 = .ok (db2, zerohashes 0) := by
  have h := Compact.update_empty_root db k 0
  rw [Compact.singleRoot_zero_val] at h
  exact ⟨_, h⟩

/-- Claim C2 (amended): in the compact engine, an update whose root is
stored as a 65-byte single-leaf node and whose key has the same
256-bit path as the stored leaf does not replace the value in place:
it always fails with the two-values-in-one-slot error. -/
theorem claim_leaf_update_same_key (db : Compact.DB) (root : Word) (p v0 k v : Nat)
    (hz : root ≠ zerohashes 0) (hget : Compact.dbget db root = some (.leaf p v0))
    (hk : k % 2 ^ 256 = p % 2 ^ 256) :
    Compact.update db root k v = .error .twoInOneSlot := by
  have h := Compact.update_fuel_leaf 255 db root k v p v0 (fun hh => hz hh) hget
  have h256 : (255 + 1 : Nat) = 256 := rfl
  rw [h256] at h
  simp only [Compact.key_to_path] at h
  have h2 := Compact.mdkh_equal 256 le_rfl db k p v v0 hk
  rw [Nat.sub_self, Nat.shiftLeft_zero, Nat.shiftLeft_zero] at h2
  rw [h2] at h
  exact h

/-- Claim C2 witness: a concrete single-leaf store where the equal-key
update raises. -/
theorem claim_leaf_update_same_key_witness :
    (raw 5 : Word) ≠ zerohashes 0 ∧
    Compact.dbget [(raw 5, Compact.Node.leaf 3 7)] (raw 5)
      = some (Compact.Node.leaf 3 7) ∧
    (3 : Nat) % 2 ^ 256 = 3 % 2 ^ 256 ∧
    Compact.update [(raw 5, Compact.Node.leaf 3 7)] (raw 5) 3 9
      = .error .twoInOneSlot :=
  ⟨by decide, by decide, rfl,
    claim_leaf_update_same_key [(raw 5, Compact.Node.leaf 3 7)] (raw 5) 3 7 3 9
      (by decide) (by decide) rfl⟩

/-- Claim C2 counterexample: the claimed in-place replacement never
happens — on a store holding one single-leaf node, updating the same
key with a new value returns the two-values-in-one-slot error instead
of succeeding. -/
theorem claim_leaf_update_same_key_cex :
    Compact.update [(raw 5, Compact.Node.leaf 3 7)] (raw 5) 3 9
      = .error .twoInOneSlot := rfl

/-- Claim C1: for a 32-byte key and value and a reachable starting
root, `get` of the key against the root returned by `update` yields
the value — the eager update always succeeds; the compact engine is
checked on every update that returns instead of raising. -/
theorem claim_update_get (edb : Eager.DB) (er : Word) (cdb : Compact.DB) (cr : Word)
    (k v : Nat) (hk : k < 2 ^ 256) (hv : v < 2 ^ 256)
    (hre : Eager.Reach edb er) (hrc : Compact.CReach cdb cr) :
    (match Eager.update edb er k v with
     | none => False
     | some (db2, r2) => Eager.get db2 r2 k = some (raw v)) ∧
    (match Compact.update cdb cr k v with
     | .error _ => True
     | .ok (db2, r2) => Compact.get db2 r2 k = some (raw v)) := by
  constructor
  · obtain ⟨g, hg⟩ := Eager.reach_rep hre
    obtain ⟨sns, hsns, hlen, hupd2⟩ := Eager.eupdate_ok 256 le_rfl edb er g k v k hg rfl
    rw [Nat.sub_self, Nat.shiftLeft_zero] at hsns
    have hueq : Eager.update edb er k v
        = some (Eager.update_loop sns.reverse k (raw v) edb) := by
      simp only [Eager.update, Eager.key_to_path, hsns]
    rcases hud : Eager.update_loop sns.reverse k (raw v) edb with ⟨db2, r2⟩
    rw [hud] at hueq hupd2
    rw [hueq]
    show Eager.get db2 r2 k = some (raw v)
    simp only at hupd2
    have hget2 := Eager.eget_ok 256 le_rfl db2 r2 _ k hupd2
    rw [Nat.sub_self, Nat.shiftLeft_zero] at hget2
    simp only [Eager.get, Eager.key_to_path]
    rw [hget2]
    simp
  · obtain ⟨g, hg⟩ := Compact.creach_rep hrc
    have hcu := Compact.cupd_correct 256 le_rfl cdb cr g k v hg
    have hshift : Compact.update_fuel 256 cdb cr (k <<< (256 - 256)) v
        = Compact.update cdb cr k v := by
      rw [Nat.sub_self, Nat.shiftLeft_zero]
      rfl
    rw [hshift] at hcu
    rcases hu : Compact.update cdb cr k v with e | ⟨db2, r2⟩
    · trivial
    · rw [hu] at hcu
      obtain ⟨hrep, _⟩ := hcu
      show Compact.get db2 r2 k = some (raw v)
      have hget2 := Compact.cget_ok 256 le_rfl db2 r2 _ k hrep
      rw [Nat.sub_self, Nat.shiftLeft_zero] at hget2
      simp only [Compact.get, Compact.key_to_path]
      rw [hget2]
      simp

/-- Claim C1 witness: both engines at the empty tree with a concrete
key/value pair. -/
theorem claim_update_get_witness :
    (1 : Nat) < 2 ^ 256 ∧ (2 : Nat) < 2 ^ 256 ∧
    Eager.Reach (Eager.new_tree []).1 (Eager.new_tree []).2 ∧
    Compact.CReach [] (Compact.new_tree []) ∧
    ((match Eager.update (Eager.new_tree []).1 (Eager.new_tree []).2 1 2 with
      | none => False
      | some (db2, r2) => Eager.get db2 r2 1 = some (raw 2)) ∧
     (match Compact.update [] (Compact.new_tree []) 1 2 with
      | .error _ => True
      | .ok (db2, r2) => Compact.get db2 r2 1 = some (raw 2))) :=
  ⟨by decide, by decide, Eager.Reach.base, Compact.CReach.base [],
    claim_update_get (Eager.new_tree []).1 (Eager.new_tree []).2 [] (Compact.new_tree [])
      1 2 (by decide) (by decide) Eager.Reach.base (Compact.CReach.base [])⟩

/-- Claim C3: updating one key leaves `get` of any other 32-byte key
unchanged, on both engines, for reachable starting roots (the compact
side on every update that returns instead of raising). -/
theorem claim_untouched_key (edb : Eager.DB) (er : Word) (cdb : Compact.DB) (cr : Word)
    (k1 v1 k2 : Nat) (hk1 : k1 < 2 ^ 256) (hv1 : v1 < 2 ^ 256) (hk2 : k2 < 2 ^ 256)
    (hne : k1 ≠ k2) (hre : Eager.Reach edb er) (hrc : Compact.CReach cdb cr) :
    (match Eager.update edb er k1 v1 with
     | none => False
     | some (db2, r2) => Eager.get db2 r2 k2 = Eager.get edb er k2) ∧
    (match Compact.update cdb cr k1 v1 with
     | .error _ => True
     | .ok (db2, r2) => Compact.get db2 r2 k2 = Compact.get cdb cr k2) := by
  have hmods : k2 % 2 ^ 256 ≠ k1 % 2 ^ 256 := by
    rw [Nat.mod_eq_of_lt hk1, Nat.mod_eq_of_lt hk2]
    exact fun h => hne h.symm
  constructor
  · obtain ⟨g, hg⟩ := Eager.reach_rep hre
    obtain ⟨sns, hsns, hlen, hupd2⟩ :=
      Eager.eupdate_ok 256 le_rfl edb er g k1 v1 k1 hg rfl
    rw [Nat.sub_self, Nat.shiftLeft_zero] at hsns
    have hueq : Eager.update edb er k1 v1
        = some (Eager.update_loop sns.reverse k1 (raw v1) edb) := by
      simp only [Eager.update, Eager.key_to_path, hsns]
    rcases hud : Eager.update_loop sns.reverse k1 (raw v1) edb with ⟨db2, r2⟩
    rw [hud] at hueq hupd2
    rw [hueq]
    show Eager.get db2 r2 k2 = Eager.get edb er k2
    simp only at hupd2
    have hafter := Eager.eget_ok 256 le_rfl db2 r2 _ k2 hupd2
    have hbefore := Eager.eget_ok 256 le_rfl edb er g k2 hg
    rw [Nat.sub_self, Nat.shiftLeft_zero] at hafter hbefore
    simp only [Eager.get, Eager.key_to_path]
    rw [hafter, hbefore]
    simp [hmods]
    intro h
    exact absurd h hmods
  · obtain ⟨g, hg⟩ := Compact.creach_rep hrc
    have hcu := Compact.cupd_correct 256 le_rfl cdb cr g k1 v1 hg
    have hshift : Compact.update_fuel 256 cdb cr (k1 <<< (256 - 256)) v1
        = Compact.update cdb cr k1 v1 := by
      rw [Nat.sub_self, Nat.shiftLeft_zero]
      rfl
    rw [hshift] at hcu
    rcases hu : Compact.update cdb cr k1 v1 with e | ⟨db2, r2⟩
    · trivial
    · rw [hu] at hcu
      obtain ⟨hrep, _⟩ := hcu
      show Compact.get db2 r2 k2 = Compact.get cdb cr k2
      have hafter := Compact.cget_ok 256 le_rfl db2 r2 _ k2 hrep
      have hbefore := Compact.cget_ok 256 le_rfl cdb cr g k2 hg
      rw [Nat.sub_self, Nat.shiftLeft_zero] at hafter hbefore
      simp only [Compact.get, Compact.key_to_path]
      rw [hafter, hbefore]
      simp [hmods]
      intro h
      exact absurd h hmods

/-- Claim C3 witness: both engines at the empty tree with distinct
concrete keys. -/
theorem claim_untouched_key_witness :
    (1 : Nat) < 2 ^ 256 ∧ (2 : Nat) < 2 ^ 256 ∧ (3 : Nat) < 2 ^ 256 ∧
    (1 : Nat) ≠ 3 ∧
    Eager.Reach (Eager.new_tree []).1 (Eager.new_tree []).2 ∧
    Compact.CReach [] (Compact.new_tree []) ∧
    ((match Eager.update (Eager.new_tree []).1 (Eager.new_tree []).2 1 2 with
      | none => False
      | some (db2, r2) => Eager.get db2 r2 3
          = Eager.get (Eager.new_tree []).1 (Eager.new_tree []).2 3) ∧
     (match Compact.update [] (Compact.new_tree []) 1 2 with
      | .error _ => True
      | .ok (db2, r2) => Compact.get db2 r2 3
          = Compact.get [] (Compact.new_tree []) 3)) :=
  ⟨by decide, by decide, by decide, by decide, Eager.Reach.base, Compact.CReach.base [],
    claim_untouched_key (Eager.new_tree []).1 (Eager.new_tree []).2 [] (Compact.new_tree [])
      1 2 3 (by decide) (by decide) (by decide) (by decide)
      Eager.Reach.base (Compact.CReach.base [])⟩

/-- Parallel simulation of the two engines: starting from stores
representing the same leaf map, a successful compact `multi_update`
forces the eager `multi_update` to succeed on the same pairs, with both
final roots representing the same map again. -/
theorem cross_engine_aux : ∀ (ops : List (Nat × Nat)) (edb : Eager.DB) (er : Word)
    (cdb cdb2 : Compact.DB) (cr cr2 : Word) (g : Nat → Nat),
    Eager.ERep edb 256 er g → Compact.Rep cdb 256 cr g →
    Compact.multi_update cdb cr ops = .ok (cdb2, cr2) →
    ∃ edb2 er2 g2, Eager.multi_update edb er ops = some (edb2, er2) ∧
      Eager.ERep edb2 256 er2 g2 ∧ Compact.Rep cdb2 256 cr2 g2 := by
  intro ops
  induction ops with
  | nil =>
    intro edb er cdb cdb2 cr cr2 g he hc hm
    simp only [Compact.multi_update] at hm
    injection hm with hm2
    injection hm2 with h1 h2
    subst h1
    subst h2
    exact ⟨edb, er, g, rfl, he, hc⟩
  | cons op rest ih =>
    intro edb er cdb cdb2 cr cr2 g he hc hm
    obtain ⟨k, v⟩ := op
    simp only [Compact.multi_update] at hm
    rcases hu : Compact.update cdb cr k v with e | ⟨cdbm, crm⟩
    · rw [hu] at hm
      exact Except.noConfusion hm
    · rw [hu] at hm
      have hm2 : Compact.multi_update cdbm crm rest = .ok (cdb2, cr2) := hm
      have hcu := Compact.cupd_correct 256 le_rfl cdb cr g k v hc
      have hshift : Compact.update_fuel 256 cdb cr (k <<< (256 - 256)) v
          = Compact.update cdb cr k v := by
        rw [Nat.sub_self, Nat.shiftLeft_zero]
        rfl
      rw [hshift, hu] at hcu
      obtain ⟨hcrep, _⟩ := hcu
      obtain ⟨sns, hsns, hlen, hupd2⟩ := Eager.eupdate_ok 256 le_rfl edb er g k v k he rfl
      rw [Nat.sub_self, Nat.shiftLeft_zero] at hsns
      have hueq : Eager.update edb er k v
          = some (Eager.update_loop sns.reverse k (raw v) edb) := by
        simp only [Eager.update, Eager.key_to_path, hsns]
      rcases hud : Eager.update_loop sns.reverse k (raw v) edb with ⟨edbm, erm⟩
      rw [hud] at hueq hupd2
      simp only at hupd2
      obtain ⟨edb2, er2, g2, hmu, he2, hc2⟩ :=
        ih edbm erm cdbm cdb2 crm cr2 _ hupd2 hcrep hm2
      refine ⟨edb2, er2, g2, ?_, he2, hc2⟩
      simp only [Eager.multi_update, hueq, hmu]

/-- Claim C6: a key/value sequence that the compact engine completes
from its empty tree is also completed by the eager engine from its
empty tree, and the two resulting trees answer `get` identically on
every 32-byte key. -/
theorem claim_cross_engine (ops : List (Nat × Nat)) (cdb : Compact.DB) (cr : Word)
    (hc : Compact.multi_update [] (Compact.new_tree []) ops = .ok (cdb, cr)) :
    ∃ edb er, Eager.multi_update (Eager.new_tree []).1 (Eager.new_tree []).2 ops
        = some (edb, er) ∧
      ∀ kq : Nat, kq < 2 ^ 256 → Eager.get edb er kq = Compact.get cdb cr kq := by
  obtain ⟨edb, er, g2, hmu, he, hcr⟩ := cross_engine_aux ops (Eager.new_tree []).1
    (Eager.new_tree []).2 [] cdb (Compact.new_tree []) cr (fun _ => 0)
    Eager.new_tree_rep (Compact.Rep_zhN [] 256 _ (fun _ _ => rfl)) hc
  refine ⟨edb, er, hmu, ?_⟩
  intro kq hkq
  have h1 := Eager.eget_ok 256 le_rfl edb er g2 kq he
  have h2 := Compact.cget_ok 256 le_rfl cdb cr g2 kq hcr
  rw [Nat.sub_self, Nat.shiftLeft_zero] at h1 h2
  simp only [Eager.get, Eager.key_to_path, Compact.get, Compact.key_to_path]
  rw [h1, h2]

/-- Claim C6 witness: a concrete one-element sequence completed by
both engines from empty, with matching gets everywhere. -/
theorem claim_cross_engine_witness :
    Compact.multi_update [] (Compact.new_tree []) [(1, 2)]
      = .ok ([(Compact.singleRoot 256 1 2, Compact.Node.leaf 1 2)],
          Compact.singleRoot 256 1 2) ∧
    (∃ edb er, Eager.multi_update (Eager.new_tree []).1 (Eager.new_tree []).2 [(1, 2)]
        = some (edb, er) ∧
      ∀ kq : Nat, kq < 2 ^ 256 → Eager.get edb er kq
        = Compact.get [(Compact.singleRoot 256 1 2, Compact.Node.leaf 1 2)]
            (Compact.singleRoot 256 1 2) kq) := by
  have h : Compact.multi_update [] (Compact.new_tree []) [(1, 2)]
      = .ok ([(Compact.singleRoot 256 1 2, Compact.Node.leaf 1 2)],
          Compact.singleRoot 256 1 2) := by
    have hu := Compact.update_empty_root [] 1 2
    rw [(by decide : (1 : Nat) % 2 ^ 256 = 1),
      (by decide : Compact.path_to_key 1 = 1)] at hu
    simp only [Compact.multi_update, Compact.new_tree, hu]
    rfl
  exact ⟨h, claim_cross_engine [(1, 2)] _ _ h⟩

/-- Claim C8 (amended): the eager engine's update never changes or
removes an existing store binding of a reachable store, so every `get`
that succeeded before the update still returns the same word after it;
the compact engine preserves every previously representable root's
represented contents, but it does not preserve raw store bindings (see
the counterexample: a zero-value write rebinds a zero-hash digest). -/
theorem claim_append_only (edb : Eager.DB) (er : Word) (cdb : Compact.DB) (cr : Word)
    (k v : Nat) (hre : Eager.Reach edb er) (hrc : Compact.CReach cdb cr) :
    (match Eager.update edb er k v with
     | none => False
     | some (db2, _) =>
        (∀ (x : Word) (c : Word × Word),
          Eager.dbget edb x = some c → Eager.dbget db2 x = some c) ∧
        (∀ (r0 : Word) (kq : Nat) (w : Word),
          Eager.get edb r0 kq = some w → Eager.get db2 r0 kq = some w)) ∧
    (match Compact.update cdb cr k v with
     | .error _ => True
     | .ok (db2, _) =>
        ∀ (m : Nat) (x : Word) (g : Nat → Nat),
          Compact.Rep cdb m x g → Compact.Rep db2 m x g) := by
  constructor
  · obtain ⟨g, hg⟩ := Eager.reach_rep hre
    have hgood := Eager.reach_good hre
    obtain ⟨sns, hsns, hlen, _⟩ := Eager.eupdate_ok 256 le_rfl edb er g k v k hg rfl
    rw [Nat.sub_self, Nat.shiftLeft_zero] at hsns
    have hueq : Eager.update edb er k v
        = some (Eager.update_loop sns.reverse k (raw v) edb) := by
      simp only [Eager.update, Eager.key_to_path, hsns]
    rcases hud : Eager.update_loop sns.reverse k (raw v) edb with ⟨db2, r2⟩
    rw [hud] at hueq
    rw [hueq]
    show (∀ (x : Word) (c : Word × Word),
        Eager.dbget edb x = some c → Eager.dbget db2 x = some c) ∧ _
    have hmono : ∀ (x : Word) (c : Word × Word),
        Eager.dbget edb x = some c → Eager.dbget db2 x = some c := by
      intro x c hx
      have := Eager.update_loop_dbget_preserved sns.reverse k (raw v) edb x c hgood hx
      rw [hud] at this
      exact this
    refine ⟨hmono, ?_⟩
    intro r0 kq w hgw
    exact Eager.get_loop_mono 256 edb db2 r0 kq w hmono hgw
  · obtain ⟨g, hg⟩ := Compact.creach_rep hrc
    have hcu := Compact.cupd_correct 256 le_rfl cdb cr g k v hg
    have hshift : Compact.update_fuel 256 cdb cr (k <<< (256 - 256)) v
        = Compact.update cdb cr k v := by
      rw [Nat.sub_self, Nat.shiftLeft_zero]
      rfl
    rw [hshift] at hcu
    rcases hu : Compact.update cdb cr k v with e | ⟨db2, r2⟩
    · trivial
    · rw [hu] at hcu
      exact hcu.2

/-- Claim C8 witness: both engines at the empty tree with a concrete
key/value pair. -/
theorem claim_append_only_witness :
    Eager.Reach (Eager.new_tree []).1 (Eager.new_tree []).2 ∧
    Compact.CReach [] (Compact.new_tree []) ∧
    ((match Eager.update (Eager.new_tree []).1 (Eager.new_tree []).2 1 2 with
      | none => False
      | some (db2, _) =>
         (∀ (x : Word) (c : Word × Word),
           Eager.dbget (Eager.new_tree []).1 x = some c → Eager.dbget db2 x = some c) ∧
         (∀ (r0 : Word) (kq : Nat) (w : Word),
           Eager.get (Eager.new_tree []).1 r0 kq = some w
             → Eager.get db2 r0 kq = some w)) ∧
     (match Compact.update [] (Compact.new_tree []) 1 2 with
      | .error _ => True
      | .ok (db2, _) =>
         ∀ (m : Nat) (x : Word) (g : Nat → Nat),
           Compact.Rep [] m x g → Compact.Rep db2 m x g)) :=
  ⟨Eager.Reach.base, Compact.CReach.base [],
    claim_append_only (Eager.new_tree []).1 (Eager.new_tree []).2 [] (Compact.new_tree [])
      1 2 Eager.Reach.base (Compact.CReach.base [])⟩

/-- Claim C8 counterexample: the compact engine does overwrite the
bytes stored under an existing digest.  Starting from the empty store,
a zero-value update binds the empty-tree digest to a single-leaf node;
a second zero-value update at a different key rebinds the same digest
to a different node, changing what the store returns for it. -/
theorem claim_append_only_cex :
    ∃ db1 r1 db2 r2,
      Compact.update [] (Compact.new_tree []) 1 0 = .ok (db1, r1) ∧
      Compact.update db1 r1 2 0 = .ok (db2, r2) ∧
      Compact.dbget db1 (zerohashes 0) ≠ Compact.dbget db2 (zerohashes 0) := by
  have h1 := Compact.update_empty_root [] 1 0
  rw [Compact.singleRoot_zero_val] at h1
  have h2 := Compact.update_empty_root
    (Compact.dbput [] (zhN 256) (.leaf (Compact.path_to_key 1) 0)) 2 0
  rw [Compact.singleRoot_zero_val] at h2
  refine ⟨Compact.dbput [] (zhN 256) (.leaf (Compact.path_to_key 1) 0), zerohashes 0,
    Compact.dbput (Compact.dbput [] (zhN 256) (.leaf (Compact.path_to_key 1) 0))
      (zhN 256) (.leaf (Compact.path_to_key 2) 0), zerohashes 0, ?_, ?_, ?_⟩
  · exact h1
  · exact h2
  · have hga : Compact.dbget (Compact.dbput [] (zhN 256)
        (.leaf (Compact.path_to_key 1) 0)) (zhN 256)
        = some (.leaf (Compact.path_to_key 1) 0) :=
      Compact.cdbget_put_self [] (zhN 256) _
    have hgb : Compact.dbget (Compact.dbput (Compact.dbput [] (zhN 256)
          (.leaf (Compact.path_to_key 1) 0)) (zhN 256)
          (.leaf (Compact.path_to_key 2) 0)) (zhN 256)
        = some (.leaf (Compact.path_to_key 2) 0) :=
      Compact.cdbget_put_self _ (zhN 256) _
    show Compact.dbget _ (zhN 256) ≠ Compact.dbget _ (zhN 256)
    rw [hga, hgb]
    have hne : Compact.path_to_key 1 ≠ Compact.path_to_key 2 := by decide
    intro hcon
    injection hcon with hcon2
    exact hne (Compact.Node.leaf.inj hcon2).1
